import Mathlib

/-!
Verification of the PlaylistPorter core against its specification.

Go strings are modelled as `List Char` (one entry per rune); Go byte
lengths (`len(s)`) are recovered as the sum of the UTF-8 sizes of the
runes.  Go `float64` arithmetic on the small score constants is modelled
exactly over `ℚ`.  Go `map[string]bool` sets (only ever populated with
`true` values by this code base) are modelled as `Finset String`.
Wall-clock fields (`CreatedAt`, `LastUpdatedAt`, `LastSyncCheck`,
session bookkeeping) and logging are omitted: no claim depends on them
and they do not feed back into any of the modelled operations.
-/

namespace PlaylistPorter

/-- A Go string viewed as its list of runes. -/
abbrev GoStr := List Char

/-- Go `len(s)`: the byte length of a string, i.e. the sum of the UTF-8
sizes of its runes. -/
def byteLen (s : GoStr) : Nat := (s.map Char.utf8Size).sum

/-- `min` of three integers, from `internal/tubo/client.go` (`min`) and the
identical helper in the processor (`internal/config/config.go`). -/
def min3 (a b c : Nat) : Nat :=
  if a < b ∧ a < c then a else if b < c then b else c

theorem length_dropWhile_le (p : Char → Bool) (l : GoStr) :
    (l.dropWhile p).length ≤ l.length :=
  (List.dropWhile_sublist p).length_le

/-- Fuel-indexed core of the Levenshtein distance; the fuel only makes
the recursion structural and never runs out at the fuel chosen in
`levenshteinDistance` (see `levF_of_le`). -/
def levF : Nat → GoStr → GoStr → Nat
  | _, [], ys => ys.length
  | _, x :: xs, [] => (x :: xs).length
  | 0, _ :: _, _ :: _ => 0
  | fuel + 1, x :: xs, y :: ys =>
      min3 (levF fuel xs (y :: ys) + 1)
           (levF fuel (x :: xs) ys + 1)
           (levF fuel xs ys + (if x = y then 0 else 1))

/-- Levenshtein distance over runes, from `levenshteinDistance` in
`internal/tubo/client.go:319` and the identical method
`Processor.levenshteinDistance` in `internal/config/config.go:250`.
The Go code fills the standard dynamic-programming matrix
`matrix[i][j] = min(matrix[i-1][j]+1, matrix[i][j-1]+1, matrix[i-1][j-1]+cost)`
with first row/column `i` and `j`; this definition is that recurrence
(see `levenshteinDistance_nil_left`, `levenshteinDistance_nil_right` and
`levenshteinDistance_cons_cons`). -/
def levenshteinDistance (s1 s2 : GoStr) : Nat :=
  levF (s1.length + s2.length) s1 s2

/-- String similarity, from `stringSimilarity` in
`internal/tubo/client.go:299` and the identical
`Processor.stringSimilarity` in `internal/config/config.go:230`:
`1.0` for equal strings, `0.0` if exactly one side is empty, otherwise
`1 - distance / maxLen` where `maxLen` is the larger byte length. -/
def stringSimilarity (s1 s2 : GoStr) : ℚ :=
  if s1 = s2 then 1
  else if byteLen s1 = 0 ∨ byteLen s2 = 0 then 0
  else 1 - (levenshteinDistance s1 s2 : ℚ) / ((max (byteLen s1) (byteLen s2) : Nat) : ℚ)

/-- The fuel of `levF` is irrelevant as long as it covers the combined
length of the inputs. -/
theorem levF_of_le : ∀ (f1 f2 : Nat) (xs ys : GoStr),
    xs.length + ys.length ≤ f1 → xs.length + ys.length ≤ f2 →
    levF f1 xs ys = levF f2 xs ys
  | f1, f2, [], ys, _, _ => by cases f1 <;> cases f2 <;> cases ys <;> rfl
  | f1, f2, x :: xs, [], _, _ => by cases f1 <;> cases f2 <;> rfl
  | f1 + 1, f2 + 1, x :: xs, y :: ys, h1, h2 => by
      simp only [List.length_cons] at h1 h2
      have e1 := levF_of_le f1 f2 xs (y :: ys)
        (by simp only [List.length_cons]; omega) (by simp only [List.length_cons]; omega)
      have e2 := levF_of_le f1 f2 (x :: xs) ys
        (by simp only [List.length_cons]; omega) (by simp only [List.length_cons]; omega)
      have e3 := levF_of_le f1 f2 xs ys (by omega) (by omega)
      simp only [levF, e1, e2, e3]
  | 0, _, x :: xs, y :: ys, h1, _ => by simp only [List.length_cons] at h1; omega
  | _ + 1, 0, x :: xs, y :: ys, _, h2 => by simp only [List.length_cons] at h2; omega

theorem levenshteinDistance_nil_right (xs : GoStr) :
    levenshteinDistance xs [] = xs.length := by
  cases xs <;> rfl

theorem levenshteinDistance_nil_left (ys : GoStr) :
    levenshteinDistance [] ys = ys.length := by
  cases ys <;> rfl

theorem levenshteinDistance_cons_cons (x y : Char) (xs ys : GoStr) :
    levenshteinDistance (x :: xs) (y :: ys) =
      min3 (levenshteinDistance xs (y :: ys) + 1)
           (levenshteinDistance (x :: xs) ys + 1)
           (levenshteinDistance xs ys + (if x = y then 0 else 1)) := by
  have e2 := levF_of_le (xs.length + (y :: ys).length) ((x :: xs).length + ys.length)
    (x :: xs) ys (by simp only [List.length_cons]; omega) (by omega)
  have e3 := levF_of_le (xs.length + (y :: ys).length) (xs.length + ys.length)
    xs ys (by simp only [List.length_cons]; omega) (by omega)
  show levF ((x :: xs).length + (y :: ys).length) (x :: xs) (y :: ys) = _
  have hlen : (x :: xs).length + (y :: ys).length = (xs.length + (y :: ys).length) + 1 := by
    simp only [List.length_cons]; omega
  rw [hlen]
  simp only [levF, levenshteinDistance, e2, e3]

theorem min3_eq (a b c : Nat) : min3 a b c = min (min a b) c := by
  unfold min3; split_ifs <;> omega

/-- The Levenshtein distance is symmetric. -/
theorem levenshteinDistance_comm : (xs ys : GoStr) →
    levenshteinDistance xs ys = levenshteinDistance ys xs
  | [], ys => by rw [levenshteinDistance_nil_left, levenshteinDistance_nil_right]
  | x :: xs, [] => by rw [levenshteinDistance_nil_left, levenshteinDistance_nil_right]
  | x :: xs, y :: ys => by
      have h1 := levenshteinDistance_comm xs (y :: ys)
      have h2 := levenshteinDistance_comm (x :: xs) ys
      have h3 := levenshteinDistance_comm xs ys
      rw [levenshteinDistance_cons_cons, levenshteinDistance_cons_cons,
        h1, h2, h3, min3_eq, min3_eq]
      have hc : (if x = y then (0 : Nat) else 1) = (if y = x then 0 else 1) := by
        by_cases h : x = y
        · subst h; simp
        · rw [if_neg h, if_neg (mt Eq.symm h)]
      rw [hc]; omega
termination_by xs ys => xs.length + ys.length

/-- The Levenshtein distance is at most the larger (rune) length. -/
theorem levenshteinDistance_le_max : (xs ys : GoStr) →
    levenshteinDistance xs ys ≤ max xs.length ys.length
  | [], ys => by rw [levenshteinDistance_nil_left]; omega
  | x :: xs, [] => by rw [levenshteinDistance_nil_right]; omega
  | x :: xs, y :: ys => by
      have h3 := levenshteinDistance_le_max xs ys
      rw [levenshteinDistance_cons_cons, min3_eq]
      have : (if x = y then (0 : Nat) else 1) ≤ 1 := by split <;> omega
      simp only [List.length_cons]
      omega
termination_by xs ys => xs.length + ys.length

theorem length_le_byteLen (s : GoStr) : s.length ≤ byteLen s := by
  induction s with
  | nil => simp [byteLen]
  | cons c cs ih =>
      have h1 : 1 ≤ c.utf8Size := Char.utf8Size_pos c
      simp only [byteLen, List.map_cons, List.sum_cons, List.length_cons] at *
      omega

theorem byteLen_eq_zero_iff (s : GoStr) : byteLen s = 0 ↔ s = [] := by
  constructor
  · intro h
    cases s with
    | nil => rfl
    | cons c cs =>
        have := length_le_byteLen (c :: cs)
        simp only [List.length_cons] at this
        omega
  · intro h; subst h; rfl

/-- The base text similarity always lies in `[0, 1]`. -/
theorem stringSimilarity_bounds (s1 s2 : GoStr) :
    0 ≤ stringSimilarity s1 s2 ∧ stringSimilarity s1 s2 ≤ 1 := by
  unfold stringSimilarity
  split
  · norm_num
  · split
    · norm_num
    · rename_i hne hz
      push_neg at hz
      obtain ⟨h1, h2⟩ := hz
      have hb1 : 0 < byteLen s1 := Nat.pos_of_ne_zero h1
      have hb2 : 0 < byteLen s2 := Nat.pos_of_ne_zero h2
      have hmaxpos : (0 : ℚ) < ((max (byteLen s1) (byteLen s2) : Nat) : ℚ) := by
        have : 0 < max (byteLen s1) (byteLen s2) := by omega
        exact_mod_cast this
      have hd : levenshteinDistance s1 s2 ≤ max (byteLen s1) (byteLen s2) := by
        have := levenshteinDistance_le_max s1 s2
        have l1 := length_le_byteLen s1
        have l2 := length_le_byteLen s2
        omega
      have hdq : (levenshteinDistance s1 s2 : ℚ)
          ≤ ((max (byteLen s1) (byteLen s2) : Nat) : ℚ) := by
        exact_mod_cast hd
      have hfrac1 : (levenshteinDistance s1 s2 : ℚ)
          / ((max (byteLen s1) (byteLen s2) : Nat) : ℚ) ≤ 1 :=
        (div_le_one hmaxpos).mpr hdq
      have hfrac0 : 0 ≤ (levenshteinDistance s1 s2 : ℚ)
          / ((max (byteLen s1) (byteLen s2) : Nat) : ℚ) :=
        div_nonneg (by positivity) (le_of_lt hmaxpos)
      constructor <;> linarith

/-! ## Data model (`internal/models`) -/

/-- `models.Track`.  `Duration` is in nanoseconds (Go `time.Duration`). -/
structure Track where
  ID : String
  Title : GoStr
  Artist : GoStr
  Album : GoStr
  Duration : Int
  ReleaseYear : Int
  ISRC : GoStr
  NormalizedTitle : GoStr
  NormalizedArtist : GoStr
deriving DecidableEq

/-- The Go zero value of `models.Track`. -/
def emptyTrack : Track :=
  { ID := "", Title := [], Artist := [], Album := [], Duration := 0,
    ReleaseYear := 0, ISRC := [], NormalizedTitle := [], NormalizedArtist := [] }

/-- `models.Playlist`. -/
structure Playlist where
  ID : String
  Name : String
  Description : String
  Tracks : List Track
  TotalTracks : Nat
  IsPublic : Bool
  OwnerID : String
deriving DecidableEq

/-- `models.MatchResult`. -/
structure MatchResult where
  OriginalTrack : Track
  MatchedTrack : Option Track
  MatchScore : ℚ
  Matched : Bool
  Error : String
deriving DecidableEq

/-! ## Checkpoint state (`internal/state/state.go`) -/

/-- `state.PortingState`.  `ProcessedTrackIDs` models the Go
`map[string]bool` (which this code base only ever fills with `true`
values) as an optional `Finset String`; `none` is Go `nil`. -/
structure PortingState where
  SpotifyURL : String
  SpotifyID : String
  OriginalPlaylist : Playlist
  ProcessedTracks : Nat
  TotalTracks : Nat
  IsComplete : Bool
  MatchResults : List MatchResult
  YouTubePlaylistID : String
  YouTubePlaylistName : String
  ProcessedTrackIDs : Option (Finset String)

/-- `Manager.CreateNewState` (state.go:128). -/
def createNewState (spotifyURL spotifyID : String) (playlist : Playlist) : PortingState :=
  { SpotifyURL := spotifyURL
    SpotifyID := spotifyID
    OriginalPlaylist := playlist
    ProcessedTracks := 0
    TotalTracks := playlist.Tracks.length
    IsComplete := false
    MatchResults := []
    YouTubePlaylistID := ""
    YouTubePlaylistName := ""
    ProcessedTrackIDs := some ∅ }

/-- `PortingState.AddMatchResults` (state.go:182): appends the results,
sets `ProcessedTracks` to the new length of `MatchResults`, inserts every
result's track id into the processed-id set (creating it when `nil`), and
sets `IsComplete` once `ProcessedTracks >= TotalTracks`. -/
def addMatchResults (s : PortingState) (results : List MatchResult) : PortingState :=
  let newMatchResults := s.MatchResults ++ results
  let newProcessed := newMatchResults.length
  let ids0 := s.ProcessedTrackIDs.getD ∅
  let newIDs := results.foldl (fun acc r => insert r.OriginalTrack.ID acc) ids0
  { s with MatchResults := newMatchResults
           ProcessedTracks := newProcessed
           ProcessedTrackIDs := some newIDs
           IsComplete := if s.TotalTracks ≤ newProcessed then true else s.IsComplete }

/-- `PortingState.GetProcessedTrackCount` (state.go:243). -/
def getProcessedTrackCount (s : PortingState) : Nat :=
  match s.ProcessedTrackIDs with
  | none => s.ProcessedTracks
  | some ids => ids.card

/-- `PortingState.UpdateForSync` (state.go:224): refreshes name,
description and track counts from the current playlist and clears
`IsComplete` when new tracks appeared (it never sets it). -/
def updateForSync (s : PortingState) (cur : Playlist) : PortingState :=
  { s with
    OriginalPlaylist := { s.OriginalPlaylist with
                            Name := cur.Name
                            Description := cur.Description
                            TotalTracks := cur.TotalTracks }
    TotalTracks := cur.Tracks.length
    IsComplete := if s.ProcessedTracks < cur.Tracks.length then false else s.IsComplete }

/-- `PortingState.GetUnprocessedTracks` (state.go:149): filter by the
processed-id set when present, otherwise fall back to the index-based
slice `Tracks[ProcessedTracks:]`. -/
def getUnprocessedTracks (s : PortingState) : List Track :=
  match s.ProcessedTrackIDs with
  | some ids => s.OriginalPlaylist.Tracks.filter (fun t => decide (t.ID ∉ ids))
  | none =>
      if s.OriginalPlaylist.Tracks.length ≤ s.ProcessedTracks then []
      else s.OriginalPlaylist.Tracks.drop s.ProcessedTracks

/-- `PortingState.GetNextBatch` (state.go:171). -/
def getNextBatch (s : PortingState) (batchSize : Nat) : List Track :=
  let unprocessed := getUnprocessedTracks s
  if unprocessed.length ≤ batchSize then unprocessed
  else unprocessed.take batchSize

/-- `PortingState.DetectNewTracks` (state.go:201): when the processed-id
set is `nil` it is first rebuilt from the recorded match results (a
mutation of the receiver, returned here as the second component); the
returned tracks are those of the current playlist whose id is not in the
set.  Nothing is ever added to the set for the returned tracks. -/
def detectNewTracks (s : PortingState) (currentPlaylist : Playlist) :
    List Track × PortingState :=
  let ids := match s.ProcessedTrackIDs with
    | none => s.MatchResults.foldl (fun acc r => insert r.OriginalTrack.ID acc) (∅ : Finset String)
    | some ids => ids
  let s' := { s with ProcessedTrackIDs := some ids }
  (currentPlaylist.Tracks.filter (fun t => decide (t.ID ∉ ids)), s')

/-! Shared concrete sample data for witnesses and counterexamples. -/

def mkTrack (id : String) : Track := { emptyTrack with ID := id }

def mkResult (id : String) : MatchResult :=
  { OriginalTrack := mkTrack id, MatchedTrack := none, MatchScore := 0,
    Matched := false, Error := "" }

def trackOne : Track := mkTrack "t1"

def playlistOne : Playlist :=
  { ID := "p", Name := "p", Description := "", Tracks := [trackOne],
    TotalTracks := 1, IsPublic := false, OwnerID := "" }

def emptyPlaylist : Playlist :=
  { ID := "p", Name := "p", Description := "", Tracks := [],
    TotalTracks := 0, IsPublic := false, OwnerID := "" }

/-! ## C1: merge idempotence -/

theorem foldl_insert_ids (results : List MatchResult) (acc : Finset String) :
    results.foldl (fun a r => insert r.OriginalTrack.ID a) acc
      = acc ∪ (results.map (fun r => r.OriginalTrack.ID)).toFinset := by
  induction results generalizing acc with
  | nil => simp
  | cons r rs ih =>
      simp only [List.foldl_cons, ih, List.map_cons, List.toFinset_cons]
      rw [Finset.insert_union, Finset.union_insert]

/-- C1 (amended): a second `AddMatchResults` with the same result list
leaves the processed-id set, and hence `GetProcessedTrackCount`, exactly
as after the first call; only the `ProcessedTracks` counter (which is
recomputed as `len(MatchResults)`) grows again. -/
theorem addMatchResults_idempotent_on_ids (s : PortingState) (results : List MatchResult) :
    (addMatchResults (addMatchResults s results) results).ProcessedTrackIDs
      = (addMatchResults s results).ProcessedTrackIDs
    ∧ getProcessedTrackCount (addMatchResults (addMatchResults s results) results)
      = getProcessedTrackCount (addMatchResults s results) := by
  have h : (addMatchResults (addMatchResults s results) results).ProcessedTrackIDs
      = (addMatchResults s results).ProcessedTrackIDs := by
    simp only [addMatchResults, foldl_insert_ids, Option.getD_some, Option.some.injEq]
    rw [Finset.union_assoc, Finset.union_self]
  refine ⟨h, ?_⟩
  simp only [getProcessedTrackCount, h]
  obtain ⟨X, hX⟩ : ∃ X, (addMatchResults s results).ProcessedTrackIDs = some X := ⟨_, rfl⟩
  rw [hX]

/-- C1 counterexample: with one genuine result merged twice, the
processed count (`ProcessedTracks`) after the second merge differs from
the count after the first merge, contradicting the claim that a repeated
`MergeResults` changes the processed count only once. -/
theorem addMatchResults_double_count_cex :
    (addMatchResults (addMatchResults (createNewState "" "" playlistOne) [mkResult "t1"])
        [mkResult "t1"]).ProcessedTracks
      ≠ (addMatchResults (createNewState "" "" playlistOne) [mkResult "t1"]).ProcessedTracks := by
  decide

/-! ## C2: the completion flag -/

/-- The two state-mutating operations the claim quantifies over. -/
inductive StateOp where
  | merge (results : List MatchResult)
  | sync (cur : Playlist)

def applyOp (s : PortingState) (op : StateOp) : PortingState :=
  match op with
  | .merge results => addMatchResults s results
  | .sync cur => updateForSync s cur

def runOps (s : PortingState) (ops : List StateOp) : PortingState :=
  ops.foldl applyOp s

/-- Invariant carried by every reachable state: the processed counter is
the length of the result list, and the completion flag is only set when
the processed counter has reached the total. -/
def CompleteInv (s : PortingState) : Prop :=
  s.ProcessedTracks = s.MatchResults.length ∧
  (s.IsComplete = true → s.TotalTracks ≤ s.ProcessedTracks)

theorem completeInv_create (url id : String) (p : Playlist) :
    CompleteInv (createNewState url id p) := by
  constructor
  · rfl
  · intro h; simp [createNewState] at h

theorem completeInv_add (s : PortingState) (results : List MatchResult)
    (h : CompleteInv s) : CompleteInv (addMatchResults s results) := by
  obtain ⟨h1, h2⟩ := h
  constructor
  · rfl
  · intro hc
    simp only [addMatchResults] at hc ⊢
    split at hc
    · rename_i hle
      simpa using hle
    · rename_i hlt
      have := h2 hc
      simp only [List.length_append]
      omega

theorem completeInv_sync (s : PortingState) (cur : Playlist)
    (h : CompleteInv s) : CompleteInv (updateForSync s cur) := by
  obtain ⟨h1, h2⟩ := h
  constructor
  · exact h1
  · intro hc
    simp only [updateForSync] at hc ⊢
    split at hc
    · exact absurd hc (by simp)
    · rename_i hge
      omega

theorem completeInv_runOps (s : PortingState) (ops : List StateOp)
    (h : CompleteInv s) : CompleteInv (runOps s ops) := by
  induction ops generalizing s with
  | nil => exact h
  | cons op ops ih =>
      cases op with
      | merge results => exact ih _ (completeInv_add s results h)
      | sync cur => exact ih _ (completeInv_sync s cur h)

/-- C2 (amended): in every state reachable from a freshly created
`PortingState` by `AddMatchResults`/`UpdateForSync` sequences,
`IsComplete = true` implies `processed >= total`.  The converse direction
of the claimed equivalence is false (see the counterexample): the code
never raises the flag outside of `AddMatchResults`, so a state can
satisfy `processed >= total` while `IsComplete` is still `false`. -/
theorem complete_implies_processed_ge_total (url id : String) (p : Playlist)
    (ops : List StateOp)
    (h : (runOps (createNewState url id p) ops).IsComplete = true) :
    (runOps (createNewState url id p) ops).TotalTracks
      ≤ (runOps (createNewState url id p) ops).ProcessedTracks :=
  (completeInv_runOps _ ops (completeInv_create url id p)).2 h

/-- Witness for the amended C2 theorem at a concrete reachable state. -/
theorem complete_implies_processed_ge_total_witness :
    (runOps (createNewState "" "" playlistOne) [StateOp.merge [mkResult "t1"]]).TotalTracks
      ≤ (runOps (createNewState "" "" playlistOne)
          [StateOp.merge [mkResult "t1"]]).ProcessedTracks :=
  complete_implies_processed_ge_total "" "" playlistOne
    [StateOp.merge [mkResult "t1"]] (by decide)

/-- C2 counterexample: after `UpdateForSync` with an emptied source
playlist (a reachable state), the completion flag is `false` although
`processed >= total` holds, refuting the claimed equivalence. -/
theorem complete_iff_cex :
    ¬ ((runOps (createNewState "" "" playlistOne) [StateOp.sync emptyPlaylist]).IsComplete = true
        ↔ (runOps (createNewState "" "" playlistOne) [StateOp.sync emptyPlaylist]).TotalTracks
            ≤ (runOps (createNewState "" "" playlistOne)
                [StateOp.sync emptyPlaylist]).ProcessedTracks) := by
  decide

/-! ## C6: `GetNextBatch` -/

/-- C6: with the processed-id set present, `GetNextBatch` returns exactly
the first `limit` source-order tracks whose id is unprocessed (hence
exactly `min limit remaining` tracks, and `[]` when none remain). -/
theorem getNextBatch_spec (s : PortingState) (ids : Finset String) (limit : Nat)
    (h : s.ProcessedTrackIDs = some ids) :
    getNextBatch s limit
      = (s.OriginalPlaylist.Tracks.filter (fun t => decide (t.ID ∉ ids))).take limit
    ∧ (getNextBatch s limit).length
      = min limit (s.OriginalPlaylist.Tracks.filter (fun t => decide (t.ID ∉ ids))).length := by
  have hu : getUnprocessedTracks s
      = s.OriginalPlaylist.Tracks.filter (fun t => decide (t.ID ∉ ids)) := by
    simp [getUnprocessedTracks, h]
  have hb : getNextBatch s limit
      = (s.OriginalPlaylist.Tracks.filter (fun t => decide (t.ID ∉ ids))).take limit := by
    by_cases hle :
        (s.OriginalPlaylist.Tracks.filter (fun t => decide (t.ID ∉ ids))).length ≤ limit
    · simp [getNextBatch, hu, hle, List.take_of_length_le hle]
    · simp [getNextBatch, hu, hle]
  refine ⟨hb, ?_⟩
  rw [hb, List.length_take]

/-- Witness for the C6 theorem at a concrete state. -/
theorem getNextBatch_spec_witness :
    getNextBatch (createNewState "" "" playlistOne) 5
      = ((createNewState "" "" playlistOne).OriginalPlaylist.Tracks.filter
          (fun t => decide (t.ID ∉ (∅ : Finset String)))).take 5
    ∧ (getNextBatch (createNewState "" "" playlistOne) 5).length
      = min 5 ((createNewState "" "" playlistOne).OriginalPlaylist.Tracks.filter
          (fun t => decide (t.ID ∉ (∅ : Finset String)))).length :=
  getNextBatch_spec (createNewState "" "" playlistOne) ∅ 5 rfl

/-! ## C8: `DetectNewTracks` invoked twice -/

/-- C8 (amended): `DetectNewTracks` never records the returned tracks as
processed, so a second invocation with the same snapshot returns exactly
the same list as the first (empty only when the first was already
empty), not the empty list the claim promises. -/
theorem detectNewTracks_stable (s : PortingState) (cur : Playlist) :
    (detectNewTracks (detectNewTracks s cur).2 cur).1 = (detectNewTracks s cur).1 := by
  unfold detectNewTracks
  cases h : s.ProcessedTrackIDs <;> simp

/-- C8 counterexample: on a fresh state with one never-processed track,
the second of two back-to-back `DetectNewTracks` calls with the unchanged
snapshot still returns that track, not the empty set. -/
theorem detectNewTracks_second_call_cex :
    (detectNewTracks (detectNewTracks (createNewState "" "" playlistOne) playlistOne).2
        playlistOne).1 ≠ [] := by
  decide

/-! ## Processor scoring (`internal/config/config.go`, package processor) -/

/-- `Processor.CalculateMatchScore` (config.go:198).  Float constants are
modelled as exact rationals. -/
def calculateMatchScore (track1 track2 : Track) : ℚ :=
  let titleScore := stringSimilarity track1.NormalizedTitle track2.NormalizedTitle
  let artistScore := stringSimilarity track1.NormalizedArtist track2.NormalizedArtist
  let finalScore := titleScore * (7/10) + artistScore * (3/10)
  let finalScore := if track1.ISRC ≠ [] ∧ track1.ISRC = track2.ISRC then 1 else finalScore
  let finalScore :=
    if track1.Duration > 0 ∧ track2.Duration > 0 ∧
        (if track1.Duration - track2.Duration < 0
         then -(track1.Duration - track2.Duration)
         else track1.Duration - track2.Duration) ≤ 10 * 1000000000
    then finalScore + 1/10 else finalScore
  if finalScore > 1 then 1 else finalScore

/-! ## Target-catalog candidate scoring (`internal/tubo/client.go`) -/

/-- `youtubeVideoID`. -/
structure YTVideoID where
  VideoID : String
deriving DecidableEq

/-- `youtubeSnippet`. -/
structure YTSnippet where
  Title : GoStr
  ChannelTitle : GoStr
  Description : GoStr
deriving DecidableEq

/-- `youtubeSearchItem`. -/
structure YTSearchItem where
  ID : YTVideoID
  Snippet : YTSnippet
deriving DecidableEq

/-- Go `strings.ToLower` (modelled as ASCII simple case folding). -/
def toLowerStr (s : GoStr) : GoStr := s.map Char.toLower

/-- Go `strings.Contains`. -/
def containsStr : GoStr → GoStr → Bool
  | _, [] => true
  | [], _ :: _ => false
  | c :: cs, sub => sub.isPrefixOf (c :: cs) || containsStr cs sub

/-- Go `strings.Index` restricted to a found/not-found position. -/
def indexOfSub (s sub : GoStr) : Option Nat :=
  if sub.isPrefixOf s then some 0
  else
    match s with
    | [] => none
    | _ :: cs => (indexOfSub cs sub).map (· + 1)

/-- One bounded run of the loop in `replaceCaseInsensitive`
(tubo/client.go:824), specialised to the empty replacement string used at
every call site: repeatedly remove the first case-insensitive occurrence
of `old`.  The fuel (the input length) bounds the iterations, since every
round removes `len(old) ≥ 1` characters; all patterns passed in the
source are non-empty. -/
def rciAux : Nat → GoStr → GoStr → GoStr
  | 0, input, _ => input
  | fuel + 1, input, old =>
      match indexOfSub (toLowerStr input) (toLowerStr old) with
      | none => input
      | some i => rciAux fuel (input.take i ++ input.drop (i + old.length)) old

/-- `replaceCaseInsensitive` (tubo/client.go:824) with `new = ""`. -/
def replaceCaseInsensitive (input old : GoStr) : GoStr :=
  rciAux input.length input old

/-- Go `strings.TrimSpace`. -/
def trimStr (s : GoStr) : GoStr :=
  ((s.dropWhile Char.isWhitespace).reverse.dropWhile Char.isWhitespace).reverse

/-- Fuel-indexed core of `strings.Fields`; the fuel only makes the
recursion structural and never runs out at the fuel chosen in
`fieldsStr` (see `fieldsF_of_le`). -/
def fieldsF : Nat → GoStr → List GoStr
  | _, [] => []
  | 0, _ :: _ => []
  | fuel + 1, c :: cs =>
      if c.isWhitespace then fieldsF fuel cs
      else (c :: cs.takeWhile (fun x => !x.isWhitespace)) ::
           fieldsF fuel (cs.dropWhile (fun x => !x.isWhitespace))

/-- Go `strings.Fields`: maximal runs of non-whitespace characters. -/
def fieldsStr (s : GoStr) : List GoStr := fieldsF s.length s

/-- The fuel of `fieldsF` is irrelevant as long as it covers the input
length. -/
theorem fieldsF_of_le : ∀ (f1 f2 : Nat) (s : GoStr),
    s.length ≤ f1 → s.length ≤ f2 → fieldsF f1 s = fieldsF f2 s
  | f1, f2, [], _, _ => by cases f1 <;> cases f2 <;> rfl
  | f1 + 1, f2 + 1, c :: cs, h1, h2 => by
      simp only [List.length_cons] at h1 h2
      by_cases hws : c.isWhitespace
      · simp only [fieldsF, hws, if_true]
        exact fieldsF_of_le f1 f2 cs (by omega) (by omega)
      · have hd := length_dropWhile_le (fun x => !x.isWhitespace) cs
        have hws' : c.isWhitespace = false := by simpa using hws
        simp only [fieldsF, hws', Bool.false_eq_true, if_false]
        rw [fieldsF_of_le f1 f2 (cs.dropWhile (fun x => !x.isWhitespace))
          (by omega) (by omega)]
  | 0, _, c :: cs, h1, _ => by simp only [List.length_cons] at h1; omega
  | _ + 1, 0, c :: cs, _, h2 => by simp only [List.length_cons] at h2; omega

theorem fieldsStr_nil : fieldsStr [] = [] := rfl

theorem fieldsStr_cons (c : Char) (cs : GoStr) :
    fieldsStr (c :: cs) =
      if c.isWhitespace then fieldsStr cs
      else (c :: cs.takeWhile (fun x => !x.isWhitespace)) ::
           fieldsStr (cs.dropWhile (fun x => !x.isWhitespace)) := by
  have hd := length_dropWhile_le (fun x => !x.isWhitespace) cs
  by_cases hws : c.isWhitespace
  · simp only [fieldsStr, List.length_cons, fieldsF, hws, if_true]
  · have hws' : c.isWhitespace = false := by simpa using hws
    simp only [fieldsStr, List.length_cons, fieldsF, hws', Bool.false_eq_true, if_false]
    rw [fieldsF_of_le cs.length (cs.dropWhile (fun x => !x.isWhitespace)).length
      (cs.dropWhile (fun x => !x.isWhitespace)) (by omega) (by omega)]

/-- Go `strings.Join` with the `" "` separator. -/
def joinWords : List GoStr → GoStr
  | [] => []
  | [w] => w
  | w :: ws => w ++ ' ' :: joinWords ws

/-- The pattern list of `cleanVideoTitle` (tubo/client.go:776). -/
def videoTitleCleanupList : List GoStr :=
  ["(Official Video)", "(Official Music Video)", "(Official Audio)",
   "(Official Lyric Video)", "(Official HD Video)",
   "(Lyric Video)", "(Lyrics)", "(Audio)", "(Video)",
   "[Official Video]", "[Official Music Video]", "[Official Audio]",
   "[Lyric Video]", "[Lyrics]", "[Audio]", "[Video]",
   "- Official Video", "- Official Music Video", "- Official Audio",
   "- Lyric Video", "- Lyrics", "- Audio",
   "| Official Video", "| Official Music Video",
   "(HD)", "[HD]", "(4K)", "[4K]", "(1080p)", "[1080p]",
   "- YouTube", "| YouTube", "- Topic", "| Topic",
   "(Full Song)", "[Full Song]", "(Complete)", "[Complete]",
   "(Music Video)", "[Music Video]", "- Music Video",
   "(Original)", "[Original]", "- Original",
   "(HQ)", "[HQ]", "- HQ"].map String.toList

/-- `Client.cleanVideoTitle` (tubo/client.go:774). -/
def cleanVideoTitle (title : GoStr) : GoStr :=
  let cleaned := videoTitleCleanupList.foldl
    (fun acc pat => replaceCaseInsensitive acc pat) title
  joinWords (fieldsStr (trimStr cleaned))

/-- The suffix list of `cleanChannelTitle` (tubo/client.go:809). -/
def channelSuffixList : List GoStr :=
  ["VEVO", "Records", "Music", "Official", "- Topic"].map String.toList

/-- `Client.cleanChannelTitle` (tubo/client.go:807). -/
def cleanChannelTitle (channel : GoStr) : GoStr :=
  let cleaned := channelSuffixList.foldl
    (fun acc sfx => replaceCaseInsensitive acc sfx) channel
  joinWords (fieldsStr (trimStr cleaned))

/-- `Client.calculateSimilarity` (tubo/client.go:714): weighted text
similarity plus substring bonuses and the cover/live/remix penalty,
capped above at `1.0` (and only above). -/
def calculateSimilarity (original : Track) (candidate : YTSearchItem) : ℚ :=
  let cleanTitle := cleanVideoTitle candidate.Snippet.Title
  let cleanChannel := cleanChannelTitle candidate.Snippet.ChannelTitle
  let titleSim := stringSimilarity (toLowerStr original.Title) (toLowerStr cleanTitle)
  let artistSim := stringSimilarity (toLowerStr original.Artist) (toLowerStr cleanChannel)
  let bonusScore : ℚ := 0
  let bonusScore :=
    if containsStr (toLowerStr candidate.Snippet.Title) (toLowerStr original.Artist)
    then bonusScore + 15/100 else bonusScore
  let bonusScore :=
    if containsStr (toLowerStr candidate.Snippet.Title) (toLowerStr original.Title)
    then bonusScore + 1/10 else bonusScore
  let videoTitleLower := toLowerStr candidate.Snippet.Title
  let channelTitleLower := toLowerStr candidate.Snippet.ChannelTitle
  let bonusScore :=
    if containsStr videoTitleLower "official".toList
        || containsStr channelTitleLower "official".toList
        || containsStr channelTitleLower "records".toList
        || ("vevo".toList).isSuffixOf channelTitleLower
    then bonusScore + 1/20 else bonusScore
  let originalTitleLower := toLowerStr original.Title
  let bonusScore :=
    if (containsStr videoTitleLower "cover".toList
          && !containsStr originalTitleLower "cover".toList)
        || (containsStr videoTitleLower "live".toList
          && !containsStr originalTitleLower "live".toList)
        || (containsStr videoTitleLower "remix".toList
          && !containsStr originalTitleLower "remix".toList)
    then bonusScore - 1/10 else bonusScore
  let finalScore := titleSim * (7/10) + artistSim * (3/10) + bonusScore
  if finalScore > 1 then 1 else finalScore

/-! ## C4: score bounds -/

/-- C4 (amended): the processor's composite score is always within
`[0, 1]`, and the candidate-side score never exceeds `1` and never drops
below `-0.1`; but the candidate-side score is *not* bounded below by `0`
(see the counterexample): the code caps it only at `1.0`, so the
cover/live/remix penalty can make it negative. -/
theorem score_bounds :
    (∀ track1 track2 : Track,
        0 ≤ calculateMatchScore track1 track2 ∧ calculateMatchScore track1 track2 ≤ 1)
    ∧ (∀ (original : Track) (candidate : YTSearchItem),
        -(1/10) ≤ calculateSimilarity original candidate
          ∧ calculateSimilarity original candidate ≤ 1) := by
  constructor
  · intro track1 track2
    obtain ⟨ht0, ht1⟩ := stringSimilarity_bounds track1.NormalizedTitle track2.NormalizedTitle
    obtain ⟨ha0, ha1⟩ := stringSimilarity_bounds track1.NormalizedArtist track2.NormalizedArtist
    simp only [calculateMatchScore]
    split_ifs <;> constructor <;> linarith
  · intro original candidate
    obtain ⟨ht0, ht1⟩ := stringSimilarity_bounds (toLowerStr original.Title)
      (toLowerStr (cleanVideoTitle candidate.Snippet.Title))
    obtain ⟨ha0, ha1⟩ := stringSimilarity_bounds (toLowerStr original.Artist)
      (toLowerStr (cleanChannelTitle candidate.Snippet.ChannelTitle))
    simp only [calculateSimilarity]
    split_ifs <;> constructor <;> linarith

/-- A source track and a candidate on which the candidate-side score is
negative: no text overlap and the "live" penalty applies. -/
def cexScoreTrack : Track := { emptyTrack with Title := "x".toList, Artist := "y".toList }

def cexScoreItem : YTSearchItem :=
  { ID := { VideoID := "v" },
    Snippet := { Title := "live".toList, ChannelTitle := "z".toList, Description := [] } }

/-- C4 counterexample: the candidate-side similarity score can be
negative (here `-0.1`), so the claimed lower bound `0 ≤ score` is false. -/
theorem calculateSimilarity_negative_cex :
    calculateSimilarity cexScoreTrack cexScoreItem < 0 := by
  have hs1 : stringSimilarity (toLowerStr "x".toList)
      (toLowerStr (cleanVideoTitle "live".toList)) = 0 := by
    have hne : ¬ toLowerStr "x".toList = toLowerStr (cleanVideoTitle "live".toList) := by
      decide
    have hb1 : byteLen (toLowerStr "x".toList) = 1 := by decide
    have hb2 : byteLen (toLowerStr (cleanVideoTitle "live".toList)) = 4 := by decide
    have hl : levenshteinDistance (toLowerStr "x".toList)
        (toLowerStr (cleanVideoTitle "live".toList)) = 4 := by decide
    rw [stringSimilarity, if_neg hne, if_neg (by rw [hb1, hb2]; norm_num), hb1, hb2, hl]
    norm_num
  have hs2 : stringSimilarity (toLowerStr "y".toList)
      (toLowerStr (cleanChannelTitle "z".toList)) = 0 := by
    have hne : ¬ toLowerStr "y".toList = toLowerStr (cleanChannelTitle "z".toList) := by
      decide
    have hb1 : byteLen (toLowerStr "y".toList) = 1 := by decide
    have hb2 : byteLen (toLowerStr (cleanChannelTitle "z".toList)) = 1 := by decide
    have hl : levenshteinDistance (toLowerStr "y".toList)
        (toLowerStr (cleanChannelTitle "z".toList)) = 1 := by decide
    rw [stringSimilarity, if_neg hne, if_neg (by rw [hb1, hb2]; norm_num), hb1, hb2, hl]
    norm_num
  have c1 : containsStr (toLowerStr "live".toList) (toLowerStr "y".toList) = false := by decide
  have c2 : containsStr (toLowerStr "live".toList) (toLowerStr "x".toList) = false := by decide
  have c3 : (containsStr (toLowerStr "live".toList) "official".toList
      || containsStr (toLowerStr "z".toList) "official".toList
      || containsStr (toLowerStr "z".toList) "records".toList
      || ("vevo".toList).isSuffixOf (toLowerStr "z".toList)) = false := by decide
  have c4 : ((containsStr (toLowerStr "live".toList) "cover".toList
        && !containsStr (toLowerStr "x".toList) "cover".toList)
      || (containsStr (toLowerStr "live".toList) "live".toList
        && !containsStr (toLowerStr "x".toList) "live".toList)
      || (containsStr (toLowerStr "live".toList) "remix".toList
        && !containsStr (toLowerStr "x".toList) "remix".toList)) = true := by decide
  simp only [calculateSimilarity, cexScoreTrack, cexScoreItem, emptyTrack, hs1, hs2,
    c1, c2, c3, c4, Bool.false_eq_true, if_false, if_true]
  rw [if_neg (by norm_num)]
  norm_num

/-! ## C7: identifier override -/

/-- C7: two tracks carrying the same non-empty ISRC always score exactly
`1.0`, whatever their titles, artists and durations are. -/
theorem isrc_match_forces_one (track1 track2 : Track)
    (h1 : track1.ISRC ≠ []) (h2 : track1.ISRC = track2.ISRC) :
    calculateMatchScore track1 track2 = 1 := by
  simp only [calculateMatchScore]
  rw [if_pos (show track1.ISRC ≠ [] ∧ track1.ISRC = track2.ISRC from ⟨h1, h2⟩)]
  split_ifs <;> norm_num at *

def isrcTrackA : Track :=
  { emptyTrack with Title := "abc".toList, ISRC := "USX1".toList, Duration := 5 }

def isrcTrackB : Track :=
  { emptyTrack with Title := "completely different".toList, ISRC := "USX1".toList,
                    Duration := 7 }

/-- Witness for C7 on two concrete tracks with divergent titles. -/
theorem isrc_match_forces_one_witness :
    calculateMatchScore isrcTrackA isrcTrackB = 1 :=
  isrc_match_forces_one isrcTrackA isrcTrackB (by decide) rfl

/-! ## C9: symmetry of the base text similarity -/

/-- C9: the base text-similarity function is symmetric. -/
theorem stringSimilarity_symm (s1 s2 : GoStr) :
    stringSimilarity s1 s2 = stringSimilarity s2 s1 := by
  unfold stringSimilarity
  by_cases heq : s1 = s2
  · subst heq; rfl
  · rw [if_neg heq, if_neg (mt Eq.symm heq)]
    by_cases hz : byteLen s1 = 0 ∨ byteLen s2 = 0
    · rw [if_pos hz, if_pos (Or.symm hz)]
    · rw [if_neg hz, if_neg (fun h => hz (Or.symm h))]
      rw [levenshteinDistance_comm s1 s2, Nat.max_comm (byteLen s1) (byteLen s2)]

/-! ## C3: crash safety of `Manager.SaveState` (state.go:103)

The on-disk behaviour of the two OS primitives the function uses is
modelled explicitly: `os.WriteFile` writes bytes to the temporary path
non-atomically (a crash can leave any torn prefix there), and
`os.Rename` atomically replaces the state file with the temporary file. -/

/-- Abstract content of a file: a fully written serialized record, or a
torn prefix (`written` bytes) of one. -/
inductive FileContent where
  | full (record : PortingState)
  | torn (record : PortingState) (written : Nat)

/-- The two paths `SaveState` touches: `playlist_<id>_state.json` and its
`.tmp` sibling. -/
structure Disk where
  stateFile : Option FileContent
  tmpFile : Option FileContent

/-- The crash points of `SaveState`: during the non-atomic write of the
temporary file, between that write and the rename, and after the atomic
rename. -/
inductive SaveCrash where
  | duringTmpWrite (written : Nat)
  | afterTmpWrite
  | afterRename

/-- Disk contents at each crash point of `SaveState` saving `newRecord`:
`os.WriteFile` (state.go:115) touches only the temporary path, and
`os.Rename` (state.go:119) atomically moves the fully written temporary
file over the state file. -/
def diskAtCrash (d : Disk) (newRecord : PortingState) : SaveCrash → Disk
  | .duringTmpWrite n => { d with tmpFile := some (.torn newRecord n) }
  | .afterTmpWrite => { d with tmpFile := some (.full newRecord) }
  | .afterRename => { stateFile := some (.full newRecord), tmpFile := none }

/-- A reader (`Manager.LoadState`, state.go:78) reads only the state
file path. -/
def readState (d : Disk) : Option FileContent := d.stateFile

/-- C3: whatever the crash point of a save, a subsequent reader sees
either the previously saved complete record or the new complete record —
never a torn one. -/
theorem saveState_crash_safe (d : Disk) (oldRecord newRecord : PortingState)
    (h : readState d = some (.full oldRecord)) (crash : SaveCrash) :
    readState (diskAtCrash d newRecord crash) = some (.full oldRecord)
    ∨ readState (diskAtCrash d newRecord crash) = some (.full newRecord) := by
  cases crash with
  | duringTmpWrite n => exact Or.inl h
  | afterTmpWrite => exact Or.inl h
  | afterRename => exact Or.inr rfl

/-- Witness for C3 at a concrete disk and crash point. -/
theorem saveState_crash_safe_witness :
    readState (diskAtCrash
        { stateFile := some (.full (createNewState "" "" emptyPlaylist)), tmpFile := none }
        (createNewState "" "" playlistOne) SaveCrash.afterTmpWrite)
      = some (.full (createNewState "" "" emptyPlaylist))
    ∨ readState (diskAtCrash
        { stateFile := some (.full (createNewState "" "" emptyPlaylist)), tmpFile := none }
        (createNewState "" "" playlistOne) SaveCrash.afterTmpWrite)
      = some (.full (createNewState "" "" playlistOne)) :=
  saveState_crash_safe
    { stateFile := some (.full (createNewState "" "" emptyPlaylist)), tmpFile := none }
    (createNewState "" "" emptyPlaylist) (createNewState "" "" playlistOne)
    rfl SaveCrash.afterTmpWrite

/-! ## C10: the multi-strategy search never returns an error -/

/-- Outcome of one call to the target-catalog search collaborator
(`Client.search`, tubo/client.go:667). -/
inductive SearchOutcome where
  | failure (msg : String)
  | success (items : List YTSearchItem)

/-- `Client.findBestMatch` (tubo/client.go:687): scan the candidates,
replacing the best only on a strictly greater score. -/
def findBestMatch (original : Track) (candidates : List YTSearchItem) :
    Option Track × ℚ :=
  candidates.foldl
    (fun acc candidate =>
      let score := calculateSimilarity original candidate
      if score > acc.2 then
        (some { emptyTrack with
                  ID := candidate.ID.VideoID
                  Title := cleanVideoTitle candidate.Snippet.Title
                  Artist := cleanChannelTitle candidate.Snippet.ChannelTitle }, score)
      else acc)
    (none, 0)

/-- The double-quote character used by the second query formulation. -/
def dquote : Char := Char.ofNat 34

/-- The two query formulations of `Client.SearchTrack`
(tubo/client.go:550): `Artist Title` and the quoted variant. -/
def searchStrategies (track : Track) : List GoStr :=
  [track.Artist ++ ' ' :: track.Title,
   dquote :: track.Artist ++ dquote :: ' ' :: dquote :: track.Title ++ [dquote]]

/-- The strategy loop of `Client.SearchTrack` (tubo/client.go:560): a
failed search or an empty result list is skipped (`continue`), a
strictly greater score replaces the running best, and a score of at
least `0.75` stops the loop early. -/
def searchLoop (search : GoStr → SearchOutcome) (track : Track) :
    List GoStr → Option Track × ℚ → Option Track × ℚ
  | [], best => best
  | query :: rest, best =>
      match search query with
      | .failure _ => searchLoop search track rest best
      | .success items =>
          if items = [] then searchLoop search track rest best
          else
            let found := findBestMatch track items
            let best1 := if found.2 > best.2 then found else best
            if found.2 ≥ 75/100 then best1
            else searchLoop search track rest best1

/-- `Client.SearchTrack` (tubo/client.go:548): run the strategy loop and
apply the minimum-acceptance threshold `0.5`; both return paths carry a
`nil` error (third component). -/
def searchTrack (search : GoStr → SearchOutcome) (track : Track) :
    Option Track × ℚ × Option String :=
  let best := searchLoop search track (searchStrategies track) (none, 0)
  if best.2 < 1/2 then (none, 0, none)
  else (best.1, best.2, none)

/-- The per-track body of `Orchestrator.matchTracks`
(orchestrator.go:344); the progress offset only affects logging and is
omitted.  The first branch is the error branch that records
`err.Error()` into the `MatchResult`. -/
def matchTracks (search : GoStr → SearchOutcome) (tracks : List Track) :
    List MatchResult :=
  tracks.map (fun track =>
    match searchTrack search track with
    | (_, _, some e) =>
        { OriginalTrack := track, MatchedTrack := none, MatchScore := 0,
          Matched := false, Error := e }
    | (some m, score, none) =>
        { OriginalTrack := track, MatchedTrack := some m, MatchScore := score,
          Matched := true, Error := "" }
    | (none, _, none) =>
        { OriginalTrack := track, MatchedTrack := none, MatchScore := 0,
          Matched := false, Error := "" })

/-- C10: for every behaviour of the search collaborator and every track,
`SearchTrack` returns a `nil` error, so every `MatchResult` produced by
the orchestrator's matching loop carries an empty error string — the
error branch is unreachable. -/
theorem searchTrack_never_errors :
    (∀ (search : GoStr → SearchOutcome) (track : Track),
        (searchTrack search track).2.2 = none)
    ∧ (∀ (search : GoStr → SearchOutcome) (tracks : List Track)
        (r : MatchResult), r ∈ matchTracks search tracks → r.Error = "") := by
  have hs : ∀ (search : GoStr → SearchOutcome) (track : Track),
      (searchTrack search track).2.2 = none := by
    intro search track
    simp only [searchTrack]
    split <;> rfl
  refine ⟨hs, ?_⟩
  intro search tracks r hr
  simp only [matchTracks, List.mem_map] at hr
  obtain ⟨track, _, rfl⟩ := hr
  have h := hs search track
  match hst : searchTrack search track with
  | (a, b, some e) => rw [hst] at h; simp at h
  | (some m, score, none) => simp only [hst]
  | (none, b, none) => simp only [hst]

/-- Witness for C10 with a collaborator that fails every query. -/
theorem searchTrack_never_errors_witness :
    (searchTrack (fun _ => SearchOutcome.failure "boom") trackOne).2.2 = none
    ∧ ({ OriginalTrack := trackOne, MatchedTrack := none, MatchScore := 0,
         Matched := false, Error := "" } : MatchResult).Error = "" := by
  refine ⟨searchTrack_never_errors.1 (fun _ => SearchOutcome.failure "boom") trackOne, ?_⟩
  refine searchTrack_never_errors.2 (fun _ => SearchOutcome.failure "boom") [trackOne] _ ?_
  norm_num [matchTracks, searchTrack, searchLoop, searchStrategies]

/-! ## The normalizer (`internal/config/config.go`, package processor)

`normalizeString` lower-cases, folds diacritics and strips non-text
characters, applies the five cleanup regexps in order, removes stopwords
and normalizes whitespace.  The regexps are embedded as dedicated
scanners with Go's leftmost-first `ReplaceAllString` semantics:

* `\([^)]*\)` and `\[[^\]]*\]` (`cutBracket`): each leftmost occurrence
  of an opening character with a closing character somewhere after it is
  replaced by a single space up to the first such closing character, and
  scanning resumes after it;
* `(?i)\s*f(ea)?t\..*` and `(?i)\s*(remix|mix|edit|version|remaster).*`
  (`cutPattern`): a match starts at the first position from which
  optional whitespace is followed by one of the keywords, and `.*`
  swallows the rest (by the time these patterns run, `removeDiacritics`
  has already replaced every control character, including newlines, by a
  space, so end-of-line is end-of-string); the whole match becomes one
  space.  The input is already lower-cased, so `(?i)` is immaterial;
* `\s+` (`collapseWS`): every maximal whitespace run becomes one space.

The normalizer calls `strings.ToLower` and the `unicode` package
classifiers, whose table-driven implementations live outside this
repository; they enter the model through the abstract interface
`GoUnicode` below, so the theorems hold for the real Unicode tables
(under which `É` folds to `é` and then to `e` through the diacritic
table, and `ø` is a letter and is kept) and not only for an ASCII
restriction.  The regexp class `\s` is RE2's `[\t\n\f\r ]`; the
scanners use `Char.isWhitespace` (`[\t\n\r ]`), and the splitting and
trimming of `removeCommonWords` use it as well: by the time any of them
runs, `removeDiacritics` has already replaced every whitespace
character other than `U+0020` by a plain space (`unicode.IsPrint`
accepts no other space), so all these variants of "whitespace" agree on
every string they are ever applied to. -/

/-- The Unicode primitives used by the normalizer: `strings.ToLower`
(which maps runes through `unicode.ToLower`) and the classifiers
`unicode.IsPrint`, `unicode.IsLetter`, `unicode.IsNumber`,
`unicode.IsSpace`.  The `Prop` fields record the facts about them the
development relies on, each a property of the Unicode tables and of
Go's documented behaviour:

* on ASCII, `ToLower` adds 32 to `A`–`Z` and fixes everything else,
  `IsLetter`/`IsNumber` hold of exactly the ASCII letters/digits,
  `IsSpace` holds of exactly `"\t\n\v\f\r "`, and `IsPrint` holds of
  exactly `U+0020`–`U+007E`;
* `ToLower` is idempotent: the simple lower-case mapping of every rune
  is itself case-stable;
* the only space character `IsPrint` accepts is `U+0020` (Go's
  `IsPrint` admits the categories L, M, N, P, S plus the ASCII space).

Every theorem about the normalizer is proved for an arbitrary
interpretation of this interface, hence in particular for the real
Unicode functions; `asciiGoUnicode` below is a computable
interpretation (the ASCII tables) used to run the pipeline on concrete
inputs. -/
structure GoUnicode where
  toLower : Char → Char
  isPrint : Char → Bool
  isLetter : Char → Bool
  isNumber : Char → Bool
  isSpace : Char → Bool
  ascii_toLower : ∀ c : Char, c.toNat < 128 → toLower c = Char.toLower c
  toLower_idem : ∀ c : Char, toLower (toLower c) = toLower c
  ascii_isLetter : ∀ c : Char, c.toNat < 128 → isLetter c = c.isAlpha
  ascii_isNumber : ∀ c : Char, c.toNat < 128 → isNumber c = c.isDigit
  ascii_isSpace : ∀ c : Char, c.toNat < 128 →
    (isSpace c = true ↔ c.toNat = 32 ∨ c.toNat = 9 ∨ c.toNat = 10
      ∨ c.toNat = 11 ∨ c.toNat = 12 ∨ c.toNat = 13)
  ascii_isPrint : ∀ c : Char, c.toNat < 128 →
    (isPrint c = true ↔ 32 ≤ c.toNat ∧ c.toNat ≤ 126)
  print_space : ∀ c : Char, isPrint c = true → isSpace c = true → c = ' '

/-- `strings.ToLower`: rune-wise `unicode.ToLower`. -/
def toLowerStrU (U : GoUnicode) (s : GoStr) : GoStr := s.map U.toLower

/-- The substitution table of `removeDiacritics` (config.go:146). -/
def diacriticReplacements : List (Char × Char) :=
  [('à', 'a'), ('á', 'a'), ('â', 'a'), ('ã', 'a'), ('ä', 'a'), ('å', 'a'),
   ('è', 'e'), ('é', 'e'), ('ê', 'e'), ('ë', 'e'),
   ('ì', 'i'), ('í', 'i'), ('î', 'i'), ('ï', 'i'),
   ('ò', 'o'), ('ó', 'o'), ('ô', 'o'), ('õ', 'o'), ('ö', 'o'),
   ('ù', 'u'), ('ú', 'u'), ('û', 'u'), ('ü', 'u'),
   ('ñ', 'n'), ('ç', 'c'),
   ('ý', 'y'), ('ÿ', 'y')]

/-- `Processor.removeDiacritics` (config.go:144): per rune, apply the
substitution table (keyed on the `unicode.ToLower` of the rune), else
keep printable letters/numbers/spaces, else emit a space. -/
def removeDiacritics (U : GoUnicode) (s : GoStr) : GoStr :=
  s.map (fun r =>
    match diacriticReplacements.lookup (U.toLower r) with
    | some rep => rep
    | none =>
        if U.isPrint r && (U.isLetter r || U.isNumber r || U.isSpace r) then r
        else ' ')

/-- Scanner for the bracket regexps `\([^)]*\)` and `\[[^\]]*\]`. -/
def cutBracket (openC closeC : Char) : GoStr → GoStr
  | [] => []
  | c :: cs =>
      if c = openC ∧ closeC ∈ cs then
        ' ' :: cutBracket openC closeC ((cs.dropWhile (fun x => !(x = closeC))).tail)
      else c :: cutBracket openC closeC cs
termination_by s => s.length
decreasing_by
  all_goals simp_wf
  all_goals
    first
    | omega
    | (have hdw := length_dropWhile_le (fun x => !(x = closeC)) cs
       omega)

/-- Does one of `keys` start at this position (after optional
whitespace)? -/
def kwPrefixAny (keys : List GoStr) (s : GoStr) : Bool :=
  keys.any (fun k => k.isPrefixOf (s.dropWhile Char.isWhitespace))

/-- Scanner for the truncating regexps `\s*f(ea)?t\..*` and
`\s*(remix|mix|edit|version|remaster).*`: from the first position where
optional whitespace is followed by a keyword, the rest of the string is
replaced by a single space. -/
def cutPattern (keys : List GoStr) : GoStr → GoStr
  | [] => []
  | c :: cs =>
      if kwPrefixAny keys (c :: cs) then [' ']
      else c :: cutPattern keys cs

/-- The alternatives of the `f(ea)?t\.` regexp (config.go:91). -/
def featKeywords : List GoStr := ["feat.", "ft."].map String.toList

/-- The alternatives of the `remix|mix|edit|version|remaster` regexp
(config.go:93). -/
def mixKeywords : List GoStr :=
  ["remix", "mix", "edit", "version", "remaster"].map String.toList

/-- Scanner for the `\s+` regexp: every maximal whitespace run becomes a
single space. -/
def collapseWS : GoStr → GoStr
  | [] => []
  | c :: cs =>
      if c.isWhitespace then ' ' :: collapseWS (cs.dropWhile Char.isWhitespace)
      else c :: collapseWS cs
termination_by s => s.length
decreasing_by
  all_goals simp_wf
  all_goals
    first
    | omega
    | (have hdw := length_dropWhile_le Char.isWhitespace cs
       omega)

/-- The stopword table of `removeCommonWords` (config.go:172). -/
def commonWords : List GoStr :=
  ["the", "a", "an", "and", "or",
   "but", "in", "on", "at", "to",
   "for", "of", "with", "by", "is",
   "are", "was", "were", "be", "been",
   "have", "has", "had", "do", "does",
   "did", "will", "would", "could", "should",
   "may", "might", "must", "can", "shall",
   "official", "music", "video", "audio",
   "lyric", "lyrics", "hd", "hq"].map String.toList

/-- `Processor.removeCommonWords` (config.go:171): split into fields,
trim each word, drop empties and stopwords, join with single spaces. -/
def removeCommonWords (s : GoStr) : GoStr :=
  joinWords (((fieldsStr s).map trimStr).filter
    (fun w => !w.isEmpty && !(commonWords.contains w)))

/-- `Processor.normalizeString` (config.go:117): the full pipeline, in
source order, over an interpretation `U` of the Unicode primitives. -/
def normalizeString (U : GoUnicode) (input : GoStr) : GoStr :=
  if input = [] then []
  else
    let r := toLowerStrU U input
    let r := removeDiacritics U r
    let r := cutBracket '(' ')' r
    let r := cutBracket '[' ']' r
    let r := cutPattern featKeywords r
    let r := cutPattern mixKeywords r
    let r := collapseWS r
    let r := removeCommonWords r
    let r := trimStr r
    collapseWS r

/-! ## C5: idempotence of the normalizer

The proof characterises the output of `normalizeString`: it is a join
of non-empty words of `NormChar` characters (fixed by `ToLower`,
outside the diacritic table, printable letters/numbers — of any script:
`ø`, `æ`, Greek or CJK characters all stay), separated by single
spaces, containing no stopword and no occurrence of the five truncation
keywords; on such strings every stage of the pipeline is the
identity. -/

theorem char_eq_iff_toNat {a b : Char} : a = b ↔ a.toNat = b.toNat :=
  ⟨fun h => by rw [h], fun h => by
    have := congrArg Char.ofNat h
    rwa [Char.ofNat_toNat, Char.ofNat_toNat] at this⟩

theorem char_le_iff_toNat {a b : Char} : a ≤ b ↔ a.toNat ≤ b.toNat :=
  ⟨fun h => h, fun h => h⟩

theorem isUpper_iff_toNat {c : Char} :
    c.isUpper = true ↔ 65 ≤ c.toNat ∧ c.toNat ≤ 90 := by
  simp only [Char.isUpper, ge_iff_le, Bool.and_eq_true, decide_eq_true_eq]
  exact ⟨fun ⟨h1, h2⟩ => ⟨h1, h2⟩, fun ⟨h1, h2⟩ => ⟨h1, h2⟩⟩

theorem isLower_iff_toNat {c : Char} :
    c.isLower = true ↔ 97 ≤ c.toNat ∧ c.toNat ≤ 122 := by
  simp only [Char.isLower, ge_iff_le, Bool.and_eq_true, decide_eq_true_eq]
  exact ⟨fun ⟨h1, h2⟩ => ⟨h1, h2⟩, fun ⟨h1, h2⟩ => ⟨h1, h2⟩⟩

theorem isDigit_iff_toNat {c : Char} :
    c.isDigit = true ↔ 48 ≤ c.toNat ∧ c.toNat ≤ 57 := by
  simp only [Char.isDigit, ge_iff_le, Bool.and_eq_true, decide_eq_true_eq]
  exact ⟨fun ⟨h1, h2⟩ => ⟨h1, h2⟩, fun ⟨h1, h2⟩ => ⟨h1, h2⟩⟩

theorem isWhitespace_iff_toNat {c : Char} :
    c.isWhitespace = true ↔
      c.toNat = 32 ∨ c.toNat = 9 ∨ c.toNat = 13 ∨ c.toNat = 10 := by
  simp only [Char.isWhitespace, Bool.or_eq_true, decide_eq_true_eq]
  rw [@char_eq_iff_toNat c ' ', @char_eq_iff_toNat c '\t',
    @char_eq_iff_toNat c '\r', @char_eq_iff_toNat c '\n',
    show (' ' : Char).toNat = 32 from rfl, show ('\t' : Char).toNat = 9 from rfl,
    show ('\r' : Char).toNat = 13 from rfl, show ('\n' : Char).toNat = 10 from rfl]
  tauto

theorem toLower_toNat (c : Char) :
    (Char.toLower c).toNat =
      if 65 ≤ c.toNat ∧ c.toNat ≤ 90 then c.toNat + 32 else c.toNat := by
  simp only [Char.toLower]
  split
  · rename_i h
    have hv : (c.toNat + 32).isValidChar := Or.inl (by omega)
    simp only [Char.ofNat, hv, dif_pos]
    rfl
  · rfl

theorem space_toNat : (' ' : Char).toNat = 32 := rfl

theorem toLower_eq_self {c : Char} (h : ¬(65 ≤ c.toNat ∧ c.toNat ≤ 90)) :
    Char.toLower c = c := by
  rw [char_eq_iff_toNat, toLower_toNat, if_neg h]

theorem diacritic_lookup_none {c : Char} (h : c.toNat < 224) :
    diacriticReplacements.lookup c = none := by
  rw [List.lookup_eq_none_iff]
  intro p hp
  have hkeys : ∀ p ∈ diacriticReplacements, 224 ≤ p.1.toNat := by decide
  have := hkeys p hp
  simp only [bne_iff_ne, ne_eq]
  intro heq
  rw [char_eq_iff_toNat] at heq
  omega

theorem char_toLower_idem (c : Char) :
    Char.toLower (Char.toLower c) = Char.toLower c := by
  have h1 := toLower_toNat c
  rw [char_eq_iff_toNat, toLower_toNat (Char.toLower c)]
  split
  · rename_i h
    rw [h1] at h
    split at h <;> omega
  · rfl

/-- The computable ASCII interpretation of `GoUnicode`, used to run the
pipeline on concrete inputs. -/
def asciiGoUnicode : GoUnicode where
  toLower := Char.toLower
  isPrint := fun c => decide (32 ≤ c.toNat ∧ c.toNat ≤ 126)
  isLetter := Char.isAlpha
  isNumber := Char.isDigit
  isSpace := fun c => decide (c.toNat = 32 ∨ c.toNat = 9 ∨ c.toNat = 10
    ∨ c.toNat = 11 ∨ c.toNat = 12 ∨ c.toNat = 13)
  ascii_toLower := fun _ _ => rfl
  toLower_idem := char_toLower_idem
  ascii_isLetter := fun _ _ => rfl
  ascii_isNumber := fun _ _ => rfl
  ascii_isSpace := fun c _ => by simp
  ascii_isPrint := fun c _ => by simp
  print_space := fun c hp hs => by
    simp only [decide_eq_true_eq] at hp hs
    rw [char_eq_iff_toNat, space_toNat]
    omega

/-- On the ASCII interpretation the normalizer's lower-casing coincides
with the scorer's ASCII `toLowerStr`. -/
theorem toLowerStrU_ascii (s : GoStr) : toLowerStrU asciiGoUnicode s = toLowerStr s :=
  rfl

theorem isAlpha_of_lower_range {c : Char} (h1 : 97 ≤ c.toNat) (h2 : c.toNat ≤ 122) :
    c.isAlpha = true := by
  simp only [Char.isAlpha, Bool.or_eq_true]
  exact Or.inr (isLower_iff_toNat.mpr ⟨h1, h2⟩)

/-- The character class every character of a string that has been
through `ToLower` and `removeDiacritics` belongs to: fixed by
`ToLower`, no diacritic-table entry, and a printable letter, number or
space.  The plain space is in the class; every character of any script
that `unicode.IsLetter`/`IsNumber` accepts may appear. -/
def NormChar (U : GoUnicode) (c : Char) : Prop :=
  U.toLower c = c
  ∧ diacriticReplacements.lookup c = none
  ∧ U.isPrint c = true
  ∧ (U.isLetter c = true ∨ U.isNumber c = true ∨ U.isSpace c = true)

theorem normChar_space (U : GoUnicode) : NormChar U ' ' := by
  refine ⟨?_, diacritic_lookup_none (by decide), ?_, Or.inr (Or.inr ?_)⟩
  · rw [U.ascii_toLower ' ' (by decide)]
    exact toLower_eq_self (by decide)
  · exact (U.ascii_isPrint ' ' (by decide)).mpr (by decide)
  · exact (U.ascii_isSpace ' ' (by decide)).mpr (Or.inl rfl)

/-- An ASCII character that is neither a letter, a digit nor whitespace
is never in the class — in particular `'('`, `'['` and `'.'` cannot
survive `removeDiacritics`, whatever the interpretation. -/
theorem not_normChar_ascii {U : GoUnicode} {c : Char} (hlt : c.toNat < 128)
    (ha : c.isAlpha = false) (hd : c.isDigit = false)
    (hs : ¬(c.toNat = 32 ∨ c.toNat = 9 ∨ c.toNat = 10 ∨ c.toNat = 11
        ∨ c.toNat = 12 ∨ c.toNat = 13)) :
    ¬ NormChar U c := by
  rintro ⟨-, -, -, hclass⟩
  rcases hclass with hl | hn | hsp
  · rw [U.ascii_isLetter c hlt, ha] at hl
    exact Bool.false_ne_true hl
  · rw [U.ascii_isNumber c hlt, hd] at hn
    exact Bool.false_ne_true hn
  · exact hs ((U.ascii_isSpace c hlt).mp hsp)

/-- After `ToLower`, every character `removeDiacritics` emits is in the
class: substitution targets are plain ASCII vowels/consonants, a kept
character carries its keep-conditions with it (its key was just looked
up, and `ToLower` is idempotent), and everything else becomes a
space. -/
theorem removeDiacritics_toLower_charset (U : GoUnicode) (s : GoStr) :
    ∀ c ∈ removeDiacritics U (toLowerStrU U s), NormChar U c := by
  intro c hc
  simp only [removeDiacritics, toLowerStrU, List.map_map, List.mem_map,
    Function.comp] at hc
  obtain ⟨x, -, rfl⟩ := hc
  have hidem : U.toLower (U.toLower x) = U.toLower x := U.toLower_idem x
  rw [hidem]
  cases hlk : diacriticReplacements.lookup (U.toLower x) with
  | some rep =>
      simp only [hlk]
      rw [List.lookup_eq_some_iff] at hlk
      obtain ⟨l1, l2, heq, -⟩ := hlk
      have hmem : (U.toLower x, rep) ∈ diacriticReplacements := by
        rw [heq]
        exact List.mem_append_right _ (List.mem_cons_self _ _)
      have hall : ∀ p ∈ diacriticReplacements,
          97 ≤ p.2.toNat ∧ p.2.toNat ≤ 122 := by decide
      obtain ⟨h97, h122⟩ : 97 ≤ rep.toNat ∧ rep.toNat ≤ 122 := hall _ hmem
      refine ⟨?_, diacritic_lookup_none (by omega), ?_, Or.inl ?_⟩
      · rw [U.ascii_toLower rep (by omega)]
        exact toLower_eq_self (by omega)
      · exact (U.ascii_isPrint rep (by omega)).mpr ⟨by omega, by omega⟩
      · rw [U.ascii_isLetter rep (by omega)]
        exact isAlpha_of_lower_range h97 h122
  | none =>
      simp only [hlk]
      split
      · rename_i hcond
        rw [Bool.and_eq_true, Bool.or_eq_true, Bool.or_eq_true] at hcond
        exact ⟨hidem, hlk, hcond.1, or_assoc.mp hcond.2⟩
      · exact normChar_space U

/-! ### The bracket scanner -/

theorem cutBracket_chars (o cl : Char) (s : GoStr) :
    ∀ c ∈ cutBracket o cl s, c ∈ s ∨ c = ' ' := by
  induction s using cutBracket.induct o cl with
  | case1 => intro c hc; simp [cutBracket] at hc
  | case2 c cs hcond ih =>
      intro d hd
      rw [cutBracket, if_pos hcond] at hd
      simp only [List.mem_cons] at hd
      rcases hd with hd | hd
      · right; exact hd
      · rcases ih d hd with h | h
        · left
          right
          exact (List.dropWhile_sublist _).subset (List.mem_of_mem_tail h)
        · right; exact h
  | case3 c cs hcond ih =>
      intro d hd
      rw [cutBracket, if_neg hcond] at hd
      simp only [List.mem_cons] at hd
      rcases hd with hd | hd
      · left; simp [hd]
      · rcases ih d hd with h | h
        · left; simp [h]
        · right; exact h

theorem cutBracket_id (o cl : Char) (s : GoStr) (h : o ∉ s) :
    cutBracket o cl s = s := by
  induction s with
  | nil => simp [cutBracket]
  | cons c cs ih =>
      rw [cutBracket, if_neg, ih (fun hm => h (List.mem_cons_of_mem c hm))]
      intro ⟨h1, _⟩
      exact h (h1 ▸ List.mem_cons_self c cs)

/-! ### The truncating keyword scanner -/

theorem kwPrefixAny_iff (keys : List GoStr) (s : GoStr) :
    kwPrefixAny keys s = true ↔
      ∃ k ∈ keys, k <+: s.dropWhile Char.isWhitespace := by
  simp only [kwPrefixAny, List.any_eq_true, List.isPrefixOf_iff_prefix]

theorem cutPattern_chars (keys : List GoStr) (s : GoStr) :
    ∀ c ∈ cutPattern keys s, c ∈ s ∨ c = ' ' := by
  induction s with
  | nil => intro c hc; simp [cutPattern] at hc
  | cons c cs ih =>
      intro d hd
      rw [cutPattern] at hd
      split at hd
      · simp only [List.mem_singleton] at hd
        right; exact hd
      · simp only [List.mem_cons] at hd
        rcases hd with hd | hd
        · left; simp [hd]
        · rcases ih d hd with h | h
          · left; simp [h]
          · right; exact h

/-- `cutPattern` returns a prefix of its input, possibly followed by one
space. -/
theorem cutPattern_trunc (keys : List GoStr) (s : GoStr) :
    ∃ t, t <+: s ∧ (cutPattern keys s = t ∨ cutPattern keys s = t ++ [' ']) := by
  induction s with
  | nil => exact ⟨[], List.nil_prefix, Or.inl rfl⟩
  | cons c cs ih =>
      rw [cutPattern]
      split
      · exact ⟨[], List.nil_prefix, Or.inr rfl⟩
      · obtain ⟨t, ht, hout⟩ := ih
        refine ⟨c :: t, (List.cons_prefix_cons).mpr ⟨rfl, ht⟩, ?_⟩
        rcases hout with hout | hout <;> rw [hout]
        · exact Or.inl rfl
        · exact Or.inr rfl

/-- Helper: a keyword that is a prefix of the visible input makes
`kwPrefixAny` fire (keywords start with a non-whitespace character). -/
theorem kwPrefixAny_fires {keys : List GoStr} {k : GoStr} {c : Char} {cs : GoStr}
    (hk : k ∈ keys) (hne : k ≠ [])
    (hnw : ∀ x ∈ k, x.isWhitespace = false)
    (hp : k <+: c :: cs) : kwPrefixAny keys (c :: cs) = true := by
  rw [kwPrefixAny_iff]
  refine ⟨k, hk, ?_⟩
  rcases k with _ | ⟨k0, krest⟩
  · exact absurd rfl hne
  · rw [List.cons_prefix_cons] at hp
    obtain ⟨rfl, hrest⟩ := hp
    rw [List.dropWhile_cons_of_neg]
    · exact (List.cons_prefix_cons).mpr ⟨rfl, hrest⟩
    · simp [hnw k0 (List.mem_cons_self k0 krest)]

/-- After `cutPattern`, no keyword occurs anywhere in the output. -/
theorem cutPattern_no_kw (keys : List GoStr) (s : GoStr) (k : GoStr)
    (hk : k ∈ keys) (hne : k ≠ [])
    (hnw : ∀ x ∈ k, x.isWhitespace = false) :
    ¬ k <:+: cutPattern keys s := by
  induction s with
  | nil =>
      intro habs
      rw [cutPattern] at habs
      exact hne (List.eq_nil_of_infix_nil habs)
  | cons c cs ih =>
      intro habs
      rw [cutPattern] at habs
      split at habs
      · rcases k with _ | ⟨k0, krest⟩
        · exact hne rfl
        · rcases (List.infix_cons_iff).mp habs with hp | hi
          · rw [List.cons_prefix_cons] at hp
            obtain ⟨rfl, -⟩ := hp
            have := hnw _ (List.mem_cons_self _ krest)
            simp at this
          · exact hne (List.eq_nil_of_infix_nil hi)
      · rename_i hcond
        rcases (List.infix_cons_iff).mp habs with hp | hi
        · rcases k with _ | ⟨k0, krest⟩
          · exact hne rfl
          · rw [List.cons_prefix_cons] at hp
            obtain ⟨rfl, hrest⟩ := hp
            obtain ⟨t, ht, hout⟩ := cutPattern_trunc keys cs
            have hkpre : k0 :: krest <+: k0 :: cs := by
              rw [List.cons_prefix_cons]
              refine ⟨rfl, ?_⟩
              rcases hout with hout | hout
              · exact (hout ▸ hrest).trans ht
              · rw [hout] at hrest
                rcases List.prefix_or_prefix_of_prefix hrest
                    (List.prefix_append t [' ']) with hcase | hcase
                · exact hcase.trans ht
                · obtain ⟨u, rfl⟩ := hcase
                  have hu : u <+: [' '] := (List.prefix_append_right_inj t).mp hrest
                  rcases u with _ | ⟨u0, urest⟩
                  · simpa using ht
                  · rw [List.cons_prefix_cons] at hu
                    obtain ⟨rfl, -⟩ := hu
                    have := hnw ' ' (by
                      exact List.mem_cons_of_mem k0 (List.mem_append_right t
                        (List.mem_cons_self ' ' urest)))
                    simp at this
            exact absurd (kwPrefixAny_fires hk hne hnw hkpre) (by simpa using hcond)
        · exact ih hi

/-- `cutPattern` is the identity on keyword-free strings. -/
theorem cutPattern_id (keys : List GoStr) (s : GoStr)
    (h : ∀ k ∈ keys, ¬ k <:+: s) :
    cutPattern keys s = s := by
  induction s with
  | nil => rfl
  | cons c cs ih =>
      rw [cutPattern, if_neg, ih]
      · intro k hk habs
        exact h k hk (habs.trans (List.infix_cons (List.infix_refl cs)))
      · intro habs
        rw [kwPrefixAny_iff] at habs
        obtain ⟨k, hk, hp⟩ := habs
        exact h k hk (List.infix_iff_prefix_suffix.mpr
          ⟨(c :: cs).dropWhile Char.isWhitespace, hp, List.dropWhile_suffix _⟩)

/-! ### The whitespace collapser -/

theorem collapseWS_nil : collapseWS [] = [] := by simp [collapseWS]

theorem collapseWS_chars (s : GoStr) :
    ∀ c ∈ collapseWS s, c ∈ s ∨ c = ' ' := by
  induction s using collapseWS.induct with
  | case1 => intro c hc; rw [collapseWS_nil] at hc; simp at hc
  | case2 c cs hws ih =>
      intro d hd
      rw [collapseWS, if_pos hws] at hd
      simp only [List.mem_cons] at hd
      rcases hd with hd | hd
      · right; exact hd
      · rcases ih d hd with h | h
        · left
          exact List.mem_cons_of_mem c ((List.dropWhile_sublist _).subset h)
        · right; exact h
  | case3 c cs hws ih =>
      intro d hd
      rw [collapseWS, if_neg hws] at hd
      simp only [List.mem_cons] at hd
      rcases hd with hd | hd
      · left; simp [hd]
      · rcases ih d hd with h | h
        · left; simp [h]
        · right; exact h

/-- A whitespace-free prefix of `collapseWS s` is a prefix of `s`. -/
theorem collapseWS_prefix_nonws (s : GoStr) :
    ∀ k, (∀ c ∈ k, c.isWhitespace = false) → k <+: collapseWS s → k <+: s := by
  induction s using collapseWS.induct with
  | case1 =>
      intro k _ hp
      rw [collapseWS_nil] at hp
      exact hp
  | case2 c cs hws ih =>
      intro k hk hp
      rw [collapseWS, if_pos hws] at hp
      rcases k with _ | ⟨k0, k'⟩
      · exact List.nil_prefix
      · rw [List.cons_prefix_cons] at hp
        obtain ⟨rfl, -⟩ := hp
        have := hk _ (List.mem_cons_self _ k')
        simp at this
  | case3 c cs hws ih =>
      intro k hk hp
      rw [collapseWS, if_neg hws] at hp
      rcases k with _ | ⟨k0, k'⟩
      · exact List.nil_prefix
      · rw [List.cons_prefix_cons] at hp
        obtain ⟨rfl, hrest⟩ := hp
        rw [List.cons_prefix_cons]
        exact ⟨rfl, ih k' (fun c hc => hk c (List.mem_cons_of_mem k0 hc)) hrest⟩

/-- A non-empty whitespace-free infix of `collapseWS s` is an infix of
`s`. -/
theorem collapseWS_infix_nonws (s : GoStr) :
    ∀ k, k ≠ [] → (∀ c ∈ k, c.isWhitespace = false) →
      k <:+: collapseWS s → k <:+: s := by
  induction s using collapseWS.induct with
  | case1 =>
      intro k hne _ habs
      rw [collapseWS_nil] at habs
      exact absurd (List.eq_nil_of_infix_nil habs) hne
  | case2 c cs hws ih =>
      intro k hne hk habs
      rw [collapseWS, if_pos hws] at habs
      rcases (List.infix_cons_iff).mp habs with hp | hi
      · rcases k with _ | ⟨k0, k'⟩
        · exact absurd rfl hne
        · rw [List.cons_prefix_cons] at hp
          obtain ⟨rfl, -⟩ := hp
          have := hk _ (List.mem_cons_self _ k')
          simp at this
      · have := ih k hne hk hi
        exact List.infix_cons (this.trans (List.dropWhile_suffix _).isInfix)
  | case3 c cs hws ih =>
      intro k hne hk habs
      rw [collapseWS, if_neg hws] at habs
      rcases (List.infix_cons_iff).mp habs with hp | hi
      · rcases k with _ | ⟨k0, k'⟩
        · exact absurd rfl hne
        · rw [List.cons_prefix_cons] at hp
          obtain ⟨rfl, hrest⟩ := hp
          have hk' := collapseWS_prefix_nonws cs k'
            (fun c hc => hk c (List.mem_cons_of_mem k0 hc)) hrest
          exact ((List.cons_prefix_cons).mpr ⟨rfl, hk'⟩).isInfix
      · exact List.infix_cons (ih k hne hk hi)

theorem collapseWS_append_nonws (w t : GoStr)
    (hw : ∀ c ∈ w, c.isWhitespace = false) :
    collapseWS (w ++ t) = w ++ collapseWS t := by
  induction w with
  | nil => rfl
  | cons c w' ih =>
      rw [List.cons_append, collapseWS, if_neg (by simp [hw c (List.mem_cons_self c w')]),
        ih (fun x hx => hw x (List.mem_cons_of_mem c hx))]
      rfl

/-! ### Joining words -/

theorem joinWords_cons_cons (w w' : GoStr) (rest : List GoStr) :
    joinWords (w :: w' :: rest) = w ++ ' ' :: joinWords (w' :: rest) := rfl

theorem joinWords_ne_nil (wsl : List GoStr) (h : wsl ≠ [])
    (hw : ∀ w ∈ wsl, w ≠ []) : joinWords wsl ≠ [] := by
  match wsl with
  | [] => exact absurd rfl h
  | [w] => exact hw w (List.mem_singleton_self w)
  | w :: w' :: rest =>
      rw [joinWords_cons_cons]
      rcases w with _ | ⟨c, t⟩
      · simp
      · simp

theorem joinWords_dropWhile (wsl : List GoStr)
    (h : ∀ w ∈ wsl, w ≠ [] ∧ ∀ c ∈ w, c.isWhitespace = false) :
    (joinWords wsl).dropWhile Char.isWhitespace = joinWords wsl := by
  match wsl with
  | [] => rfl
  | [w] =>
      show w.dropWhile Char.isWhitespace = w
      obtain ⟨hne, hnw⟩ := h w (List.mem_singleton_self w)
      rcases w with _ | ⟨c, t⟩
      · rfl
      · exact List.dropWhile_cons_of_neg (by simp [hnw c (List.mem_cons_self c t)])
  | w :: w' :: rest =>
      rw [joinWords_cons_cons]
      obtain ⟨hne, hnw⟩ := h w (List.mem_cons_self w _)
      rcases w with _ | ⟨c, t⟩
      · exact absurd rfl hne
      · rw [List.cons_append]
        exact List.dropWhile_cons_of_neg (by simp [hnw c (List.mem_cons_self c t)])

theorem joinWords_getLast? (wsl : List GoStr) (hne : wsl ≠ [])
    (h : ∀ w ∈ wsl, w ≠ []) :
    ∃ w ∈ wsl, (joinWords wsl).getLast? = w.getLast? := by
  match wsl with
  | [] => exact absurd rfl hne
  | [w] => exact ⟨w, List.mem_singleton_self w, rfl⟩
  | w :: w' :: rest =>
      obtain ⟨v, hv, hlast⟩ := joinWords_getLast? (w' :: rest) (by simp)
        (fun x hx => h x (List.mem_cons_of_mem w hx))
      refine ⟨v, List.mem_cons_of_mem w hv, ?_⟩
      rw [joinWords_cons_cons,
        List.getLast?_append_of_ne_nil w (by simp),
        show (' ' :: joinWords (w' :: rest)) = [' '] ++ joinWords (w' :: rest) from rfl,
        List.getLast?_append_of_ne_nil [' ']
          (joinWords_ne_nil (w' :: rest) (by simp)
            (fun x hx => h x (List.mem_cons_of_mem w hx))),
        hlast]

theorem trimStr_join (wsl : List GoStr)
    (h : ∀ w ∈ wsl, w ≠ [] ∧ ∀ c ∈ w, c.isWhitespace = false) :
    trimStr (joinWords wsl) = joinWords wsl := by
  rcases eq_or_ne wsl [] with rfl | hne
  · rfl
  · unfold trimStr
    rw [joinWords_dropWhile wsl h]
    obtain ⟨w, hw, hlast⟩ := joinWords_getLast? wsl hne (fun x hx => (h x hx).1)
    obtain ⟨hwne, hwnw⟩ := h w hw
    have hjoin_ne : joinWords wsl ≠ [] := joinWords_ne_nil wsl hne (fun x hx => (h x hx).1)
    have hlastc : (joinWords wsl).getLast? = some (w.getLast hwne) := by
      rw [hlast, List.getLast?_eq_getLast w hwne]
    have hhead : (joinWords wsl).reverse.head? = some (w.getLast hwne) := by
      rw [List.head?_reverse, hlastc]
    rcases hrev : (joinWords wsl).reverse with _ | ⟨c, rest⟩
    · simp [hrev] at hhead
    · rw [hrev] at hhead
      simp only [List.head?_cons, Option.some.injEq] at hhead
      rw [List.dropWhile_cons_of_neg]
      · rw [← hrev, List.reverse_reverse]
      · subst hhead
        simp [hwnw (w.getLast hwne) (List.getLast_mem hwne)]

theorem collapseWS_join (wsl : List GoStr)
    (h : ∀ w ∈ wsl, w ≠ [] ∧ ∀ c ∈ w, c.isWhitespace = false) :
    collapseWS (joinWords wsl) = joinWords wsl := by
  match wsl with
  | [] => exact collapseWS_nil
  | [w] =>
      show collapseWS w = w
      have := collapseWS_append_nonws w [] (fun c hc => (h w (List.mem_singleton_self w)).2 c hc)
      simpa [collapseWS_nil] using this
  | w :: w' :: rest =>
      rw [joinWords_cons_cons,
        collapseWS_append_nonws w _ (fun c hc => (h w (List.mem_cons_self w _)).2 c hc),
        collapseWS, if_pos (by simp),
        joinWords_dropWhile (w' :: rest) (fun x hx => h x (List.mem_cons_of_mem w hx)),
        collapseWS_join (w' :: rest) (fun x hx => h x (List.mem_cons_of_mem w hx))]

/-! ### Splitting into fields -/

theorem fieldsStr_words_aux : ∀ (n : Nat) (s : GoStr), s.length ≤ n →
    ∀ w ∈ fieldsStr s, w ≠ [] ∧ (∀ c ∈ w, c.isWhitespace = false) ∧ w <:+: s
  | _, [], _, w, hw => by rw [fieldsStr_nil] at hw; simp at hw
  | n + 1, c :: cs, hlen, w, hw => by
      rw [fieldsStr_cons] at hw
      simp only [List.length_cons] at hlen
      by_cases hws : c.isWhitespace
      · rw [if_pos hws] at hw
        have := fieldsStr_words_aux n cs (by omega) w hw
        exact ⟨this.1, this.2.1, List.infix_cons this.2.2⟩
      · rw [if_neg hws] at hw
        rcases List.mem_cons.mp hw with rfl | hmem
        · refine ⟨by simp, ?_, ?_⟩
          · intro x hx
            rcases List.mem_cons.mp hx with rfl | hx'
            · simpa using hws
            · simpa using List.mem_takeWhile_imp hx'
          · exact ((List.cons_prefix_cons).mpr ⟨rfl, List.takeWhile_prefix _⟩).isInfix
        · have hd := length_dropWhile_le (fun x => !x.isWhitespace) cs
          have := fieldsStr_words_aux n (cs.dropWhile (fun x => !x.isWhitespace))
            (by omega) w hmem
          exact ⟨this.1, this.2.1,
            List.infix_cons (this.2.2.trans (List.dropWhile_suffix _).isInfix)⟩
  | 0, c :: cs, hlen, _, _ => by simp at hlen

/-- Every field is a non-empty whitespace-free infix of the input. -/
theorem fieldsStr_words (s : GoStr) :
    ∀ w ∈ fieldsStr s, w ≠ [] ∧ (∀ c ∈ w, c.isWhitespace = false) ∧ w <:+: s :=
  fieldsStr_words_aux s.length s le_rfl

theorem takeWhile_nonws_all (t : GoStr) (h : ∀ c ∈ t, c.isWhitespace = false) :
    t.takeWhile (fun x => !x.isWhitespace) = t := by
  induction t with
  | nil => rfl
  | cons c t' ih =>
      rw [List.takeWhile_cons_of_pos (by simp [h c (List.mem_cons_self c t')]),
        ih (fun x hx => h x (List.mem_cons_of_mem c hx))]

theorem dropWhile_nonws_all (t : GoStr) (h : ∀ c ∈ t, c.isWhitespace = false) :
    t.dropWhile (fun x => !x.isWhitespace) = [] := by
  induction t with
  | nil => rfl
  | cons c t' ih =>
      rw [List.dropWhile_cons_of_pos (by simp [h c (List.mem_cons_self c t')]),
        ih (fun x hx => h x (List.mem_cons_of_mem c hx))]

theorem takeWhile_word_space (w t : GoStr) (hw : ∀ c ∈ w, c.isWhitespace = false) :
    (w ++ ' ' :: t).takeWhile (fun x => !x.isWhitespace) = w := by
  induction w with
  | nil =>
      rw [List.nil_append]
      exact List.takeWhile_cons_of_neg (by simp)
  | cons c w' ih =>
      rw [List.cons_append,
        List.takeWhile_cons_of_pos (by simp [hw c (List.mem_cons_self c w')]),
        ih (fun x hx => hw x (List.mem_cons_of_mem c hx))]

theorem dropWhile_word_space (w t : GoStr) (hw : ∀ c ∈ w, c.isWhitespace = false) :
    (w ++ ' ' :: t).dropWhile (fun x => !x.isWhitespace) = ' ' :: t := by
  induction w with
  | nil =>
      rw [List.nil_append]
      exact List.dropWhile_cons_of_neg (by simp)
  | cons c w' ih =>
      rw [List.cons_append,
        List.dropWhile_cons_of_pos (by simp [hw c (List.mem_cons_self c w')]),
        ih (fun x hx => hw x (List.mem_cons_of_mem c hx))]

theorem fieldsStr_single (w : GoStr) (hne : w ≠ [])
    (hnw : ∀ c ∈ w, c.isWhitespace = false) : fieldsStr w = [w] := by
  rcases w with _ | ⟨c, t⟩
  · exact absurd rfl hne
  · rw [fieldsStr_cons, if_neg (by simp [hnw c (List.mem_cons_self c t)]),
      takeWhile_nonws_all t (fun x hx => hnw x (List.mem_cons_of_mem c hx)),
      dropWhile_nonws_all t (fun x hx => hnw x (List.mem_cons_of_mem c hx)),
      fieldsStr_nil]

theorem fieldsStr_word_space (w t : GoStr) (hne : w ≠ [])
    (hnw : ∀ c ∈ w, c.isWhitespace = false) :
    fieldsStr (w ++ ' ' :: t) = w :: fieldsStr t := by
  rcases w with _ | ⟨c, w'⟩
  · exact absurd rfl hne
  · rw [List.cons_append, fieldsStr_cons,
      if_neg (by simp [hnw c (List.mem_cons_self c w')]),
      takeWhile_word_space w' t (fun x hx => hnw x (List.mem_cons_of_mem c hx)),
      dropWhile_word_space w' t (fun x hx => hnw x (List.mem_cons_of_mem c hx)),
      fieldsStr_cons, if_pos (by simp)]

/-- Fields of a join of non-empty whitespace-free words recovers the
word list. -/
theorem fieldsStr_join : (wsl : List GoStr) →
    (∀ w ∈ wsl, w ≠ [] ∧ ∀ c ∈ w, c.isWhitespace = false) →
    fieldsStr (joinWords wsl) = wsl
  | [], _ => fieldsStr_nil
  | [w], h => by
      obtain ⟨hne, hnw⟩ := h w (List.mem_singleton_self w)
      exact fieldsStr_single w hne hnw
  | w :: w' :: rest, h => by
      obtain ⟨hne, hnw⟩ := h w (List.mem_cons_self w _)
      rw [joinWords_cons_cons, fieldsStr_word_space w _ hne hnw,
        fieldsStr_join (w' :: rest) (fun x hx => h x (List.mem_cons_of_mem w hx))]

/-! ### Occurrences across a join -/

theorem infix_append_space (k : GoStr) (hne : k ≠ [])
    (hnw : ∀ c ∈ k, c.isWhitespace = false) :
    ∀ (A B : GoStr), k <:+: A ++ ' ' :: B → k <:+: A ∨ k <:+: B := by
  intro A
  induction A with
  | nil =>
      intro B h
      rw [List.nil_append] at h
      rcases (List.infix_cons_iff).mp h with hp | hi
      · rcases k with _ | ⟨k0, k'⟩
        · exact absurd rfl hne
        · rw [List.cons_prefix_cons] at hp
          obtain ⟨rfl, -⟩ := hp
          have := hnw _ (List.mem_cons_self _ k')
          simp at this
      · exact Or.inr hi
  | cons a A' ih =>
      intro B h
      rw [List.cons_append] at h
      rcases (List.infix_cons_iff).mp h with hp | hi
      · rcases k with _ | ⟨k0, k'⟩
        · exact absurd rfl hne
        · rw [List.cons_prefix_cons] at hp
          obtain ⟨rfl, hrest⟩ := hp
          rcases List.prefix_or_prefix_of_prefix hrest
              (List.prefix_append A' (' ' :: B)) with hc | hc
          · exact Or.inl ((List.cons_prefix_cons).mpr ⟨rfl, hc⟩).isInfix
          · obtain ⟨u, rfl⟩ := hc
            have hu : u <+: ' ' :: B := (List.prefix_append_right_inj A').mp hrest
            rcases u with _ | ⟨u0, u'⟩
            · left
              rw [List.append_nil]
            · rw [List.cons_prefix_cons] at hu
              obtain ⟨rfl, -⟩ := hu
              have := hnw ' ' (List.mem_cons_of_mem k0
                (List.mem_append_right A' (List.mem_cons_self ' ' u')))
              simp at this
      · rcases ih B hi with hcase | hcase
        · exact Or.inl (List.infix_cons hcase)
        · exact Or.inr hcase

theorem infix_join (k : GoStr) (hne : k ≠ [])
    (hnw : ∀ c ∈ k, c.isWhitespace = false) :
    ∀ (wsl : List GoStr), k <:+: joinWords wsl → ∃ w ∈ wsl, k <:+: w
  | [], h => absurd (List.eq_nil_of_infix_nil h) hne
  | [w], h => ⟨w, List.mem_singleton_self w, h⟩
  | w :: w' :: rest, h => by
      rw [joinWords_cons_cons] at h
      rcases infix_append_space k hne hnw w (joinWords (w' :: rest)) h with h1 | h1
      · exact ⟨w, List.mem_cons_self w _, h1⟩
      · obtain ⟨v, hv, hkv⟩ := infix_join k hne hnw (w' :: rest) h1
        exact ⟨v, List.mem_cons_of_mem w hv, hkv⟩

/-! ### Stopword removal -/

theorem dropWhile_nonws_eq_self (t : GoStr) (h : ∀ c ∈ t, c.isWhitespace = false) :
    t.dropWhile Char.isWhitespace = t := by
  rcases t with _ | ⟨c, t'⟩
  · rfl
  · exact List.dropWhile_cons_of_neg (by simp [h c (List.mem_cons_self c t')])

theorem trimStr_nonws (w : GoStr) (h : ∀ c ∈ w, c.isWhitespace = false) :
    trimStr w = w := by
  unfold trimStr
  rw [dropWhile_nonws_eq_self w h,
    dropWhile_nonws_eq_self w.reverse (fun c hc => h c (List.mem_reverse.mp hc)),
    List.reverse_reverse]

theorem map_trim_fields (s : GoStr) : (fieldsStr s).map trimStr = fieldsStr s := by
  rw [List.map_congr_left (fun w hw => trimStr_nonws w (fieldsStr_words s w hw).2.1)]
  exact List.map_id' (fieldsStr s)

theorem removeCommonWords_join (wsl : List GoStr)
    (h : ∀ w ∈ wsl, w ≠ [] ∧ (∀ c ∈ w, c.isWhitespace = false)
        ∧ commonWords.contains w = false) :
    removeCommonWords (joinWords wsl) = joinWords wsl := by
  unfold removeCommonWords
  rw [fieldsStr_join wsl (fun w hw => ⟨(h w hw).1, (h w hw).2.1⟩),
    List.map_congr_left (fun w hw => trimStr_nonws w (h w hw).2.1),
    List.map_id' wsl, List.filter_eq_self.mpr]
  intro w hw
  obtain ⟨hne, -, hcw⟩ := h w hw
  simp only [Bool.and_eq_true, Bool.not_eq_true']
  exact ⟨by simpa using hne, hcw⟩

/-! ### Stage identities on fully normalized strings -/

theorem joinWords_chars : ∀ (wsl : List GoStr), ∀ c ∈ joinWords wsl,
    (∃ w ∈ wsl, c ∈ w) ∨ c = ' '
  | [] => by intro c hc; simp [joinWords] at hc
  | [w] => by
      intro c hc
      exact Or.inl ⟨w, List.mem_singleton_self w, hc⟩
  | w :: w' :: rest => by
      intro c hc
      rw [joinWords_cons_cons] at hc
      rcases List.mem_append.mp hc with hcw | hctail
      · exact Or.inl ⟨w, List.mem_cons_self w _, hcw⟩
      · rcases List.mem_cons.mp hctail with rfl | hc'
        · exact Or.inr rfl
        · rcases joinWords_chars (w' :: rest) c hc' with ⟨v, hv, hcv⟩ | hsp
          · exact Or.inl ⟨v, List.mem_cons_of_mem w hv, hcv⟩
          · exact Or.inr hsp

theorem toLowerStrU_id (U : GoUnicode) (y : GoStr) (h : ∀ c ∈ y, NormChar U c) :
    toLowerStrU U y = y := by
  unfold toLowerStrU
  rw [show y.map U.toLower = y.map (fun c => c) from
    List.map_congr_left (fun c hc => (h c hc).1)]
  exact List.map_id' y

theorem removeDiacritics_id (U : GoUnicode) (y : GoStr) (h : ∀ c ∈ y, NormChar U c) :
    removeDiacritics U y = y := by
  unfold removeDiacritics
  rw [show (y.map fun r =>
      match diacriticReplacements.lookup (U.toLower r) with
      | some rep => rep
      | none =>
          if U.isPrint r && (U.isLetter r || U.isNumber r || U.isSpace r) then r
          else ' ')
      = y.map (fun c => c) from List.map_congr_left ?_]
  · exact List.map_id' y
  · intro c hc
    obtain ⟨hfix, hlk, hpr, hclass⟩ := h c hc
    rw [hfix, hlk, if_pos]
    rw [Bool.and_eq_true, Bool.or_eq_true, Bool.or_eq_true]
    exact ⟨hpr, or_assoc.mpr hclass⟩

theorem cutBracket_paren_id (U : GoUnicode) (y : GoStr) (h : ∀ c ∈ y, NormChar U c) :
    cutBracket '(' ')' y = y :=
  cutBracket_id _ _ _ (fun hm =>
    not_normChar_ascii (by decide) (by decide) (by decide) (by decide) (h '(' hm))

theorem cutBracket_square_id (U : GoUnicode) (y : GoStr) (h : ∀ c ∈ y, NormChar U c) :
    cutBracket '[' ']' y = y :=
  cutBracket_id _ _ _ (fun hm =>
    not_normChar_ascii (by decide) (by decide) (by decide) (by decide) (h '[' hm))

theorem cutPattern_feat_id (U : GoUnicode) (y : GoStr) (h : ∀ c ∈ y, NormChar U c) :
    cutPattern featKeywords y = y := by
  apply cutPattern_id
  intro k hk habs
  have hdot : '.' ∈ k := by
    have hall : ∀ k ∈ featKeywords, '.' ∈ k := by decide
    exact hall k hk
  have hdy : '.' ∈ y := habs.subset hdot
  exact not_normChar_ascii (by decide) (by decide) (by decide) (by decide) (h '.' hdy)

theorem mixFacts : ∀ k ∈ mixKeywords, k ≠ [] ∧ ∀ c ∈ k, c.isWhitespace = false := by
  decide

/-! ### The normal form of `normalizeString` -/

/-- First pass: the output of `normalizeString` is a join of non-empty
non-stopword words of `NormChar` characters with no truncation-keyword
occurrence. -/
theorem normalizeString_normal_form (U : GoUnicode) (s : GoStr) :
    ∃ wsl, normalizeString U s = joinWords wsl
      ∧ (∀ w ∈ wsl, w ≠ [] ∧ (∀ c ∈ w, NormChar U c ∧ c.isWhitespace = false)
          ∧ commonWords.contains w = false)
      ∧ (∀ k ∈ mixKeywords, ¬ k <:+: joinWords wsl) := by
  rcases eq_or_ne s [] with rfl | hs
  · refine ⟨[], by rw [normalizeString]; rfl, by simp, ?_⟩
    intro k hk habs
    exact absurd (List.eq_nil_of_infix_nil habs) (mixFacts k hk).1
  · set x0 := removeDiacritics U (toLowerStrU U s) with hx0
    have hx0c : ∀ c ∈ x0, NormChar U c := removeDiacritics_toLower_charset U s
    set x1 := cutPattern mixKeywords x0 with hx1
    have hx1c : ∀ c ∈ x1, NormChar U c := by
      intro c hc
      rcases cutPattern_chars mixKeywords x0 c hc with h | h
      · exact hx0c c h
      · rw [h]; exact normChar_space U
    set x2 := collapseWS x1 with hx2
    have hx2c : ∀ c ∈ x2, NormChar U c := by
      intro c hc
      rcases collapseWS_chars x1 c hc with h | h
      · exact hx1c c h
      · rw [h]; exact normChar_space U
    set fw := ((fieldsStr x2).map trimStr).filter
      (fun w => !w.isEmpty && !(commonWords.contains w)) with hfwdef
    have hfw_sub : ∀ w ∈ fw, w ∈ fieldsStr x2 := by
      intro w hw
      have := (List.mem_filter.mp hw).1
      rwa [map_trim_fields x2] at this
    have hfw_nonws : ∀ w ∈ fw, w ≠ [] ∧ ∀ c ∈ w, c.isWhitespace = false := fun w hw =>
      ⟨(fieldsStr_words x2 w (hfw_sub w hw)).1, (fieldsStr_words x2 w (hfw_sub w hw)).2.1⟩
    refine ⟨fw, ?_, ?_, ?_⟩
    · rw [normalizeString, if_neg hs]
      show collapseWS (trimStr (removeCommonWords (collapseWS (cutPattern mixKeywords
        (cutPattern featKeywords (cutBracket '[' ']' (cutBracket '(' ')'
          (removeDiacritics U (toLowerStrU U s))))))))) = joinWords fw
      rw [← hx0, cutBracket_paren_id U x0 hx0c, cutBracket_square_id U x0 hx0c,
        cutPattern_feat_id U x0 hx0c, ← hx1, ← hx2]
      have hrcw : removeCommonWords x2 = joinWords fw := by rw [hfwdef]; rfl
      rw [hrcw, trimStr_join fw hfw_nonws, collapseWS_join fw hfw_nonws]
    · intro w hw
      have hprops := fieldsStr_words x2 w (hfw_sub w hw)
      have hpred := (List.mem_filter.mp hw).2
      simp only [Bool.and_eq_true, Bool.not_eq_true'] at hpred
      refine ⟨hprops.1, ?_, hpred.2⟩
      intro c hc
      exact ⟨hx2c c (hprops.2.2.subset hc), hprops.2.1 c hc⟩
    · intro k hk habs
      obtain ⟨hkne, hknw⟩ := mixFacts k hk
      obtain ⟨w, hw, hkw'⟩ := infix_join k hkne hknw fw habs
      have hwinf : w <:+: x2 := (fieldsStr_words x2 w (hfw_sub w hw)).2.2
      exact cutPattern_no_kw mixKeywords x0 k hk hkne hknw
        (collapseWS_infix_nonws x1 k hkne hknw (hkw'.trans hwinf))

/-- Second pass: `normalizeString` is the identity on every string in
the normal form produced by the first pass. -/
theorem normalizeString_id_of_normal (U : GoUnicode) (wsl : List GoStr)
    (hw : ∀ w ∈ wsl, w ≠ [] ∧ (∀ c ∈ w, NormChar U c ∧ c.isWhitespace = false)
        ∧ commonWords.contains w = false)
    (hkw : ∀ k ∈ mixKeywords, ¬ k <:+: joinWords wsl) :
    normalizeString U (joinWords wsl) = joinWords wsl := by
  rcases eq_or_ne (joinWords wsl) [] with hy | hy
  · rw [normalizeString, if_pos hy, hy]
  · have hyc : ∀ c ∈ joinWords wsl, NormChar U c := by
      intro c hc
      rcases joinWords_chars wsl c hc with ⟨w, hwmem, hcw⟩ | hsp
      · exact ((hw w hwmem).2.1 c hcw).1
      · rw [hsp]; exact normChar_space U
    have hwords_nonws : ∀ w ∈ wsl, w ≠ [] ∧ ∀ c ∈ w, c.isWhitespace = false := by
      intro w hwmem
      obtain ⟨hne, hcl, -⟩ := hw w hwmem
      exact ⟨hne, fun c hc => (hcl c hc).2⟩
    rw [normalizeString, if_neg hy]
    show collapseWS (trimStr (removeCommonWords (collapseWS (cutPattern mixKeywords
      (cutPattern featKeywords (cutBracket '[' ']' (cutBracket '(' ')'
        (removeDiacritics U (toLowerStrU U (joinWords wsl)))))))))) = joinWords wsl
    rw [toLowerStrU_id U _ hyc, removeDiacritics_id U _ hyc,
      cutBracket_paren_id U _ hyc, cutBracket_square_id U _ hyc,
      cutPattern_feat_id U _ hyc, cutPattern_id mixKeywords _ hkw,
      collapseWS_join wsl hwords_nonws,
      removeCommonWords_join wsl (fun w hwmem =>
        ⟨(hw w hwmem).1, (hwords_nonws w hwmem).2, (hw w hwmem).2.2⟩),
      trimStr_join wsl hwords_nonws,
      collapseWS_join wsl hwords_nonws]

/-- C5: the normalizer is idempotent — for every interpretation of the
Unicode primitives satisfying the recorded facts about Go's tables (in
particular the real `strings.ToLower` and `unicode` classifiers),
running `normalizeString` on one of its own outputs returns that output
unchanged. -/
theorem normalizeString_idempotent (U : GoUnicode) (s : GoStr) :
    normalizeString U (normalizeString U s) = normalizeString U s := by
  obtain ⟨wsl, heq, hwords, hkw⟩ := normalizeString_normal_form U s
  rw [heq]
  exact normalizeString_id_of_normal U wsl hwords hkw

/-- Witness for C5: the theorem at the ASCII interpretation and a
concrete title. -/
theorem normalizeString_idempotent_witness :
    normalizeString asciiGoUnicode (normalizeString asciiGoUnicode
      ("Song (Remix) [Official Video]".toList))
      = normalizeString asciiGoUnicode ("Song (Remix) [Official Video]".toList) :=
  normalizeString_idempotent asciiGoUnicode ("Song (Remix) [Official Video]".toList)

end PlaylistPorter
